import Mathlib

/-!
Verification of the qubit-routing compiler (mapper / router / transform).

The Python sources are shallowly embedded: pure functions become Lean
functions, the stateful router becomes explicit state passing, Python lists
become `List`, Python sets become `Finset ℕ`, and `float('inf')` distances
become an `Option Nat` cost type (`none` = infinity).  The only source of
nondeterminism reaching the router is `random.choice([control, target, -1])`
inside `__swap_strategy_by_lookahead`; it is modelled by an oracle parameter
of type `RChoice` so that theorems can quantify over every possible draw.
-/

namespace Xanadu

/-! ### Cost values: `Option Nat` models Python ints together with `float('inf')` -/

/-- Distance value: `none` is `float('inf')`. -/
abbrev Cost := Option Nat

/-- Addition on distances; `inf + x = x + inf = inf`. -/
def cAdd : Cost → Cost → Cost
  | some a, some b => some (a + b)
  | _, _ => none

/-- Strict comparison on distances, as Python compares ints with `float('inf')`. -/
def cLt : Cost → Cost → Bool
  | some a, some b => decide (a < b)
  | some _, none => true
  | none, _ => false

/-! ### `UnweightedUndirectedGraph` (src/router/utils/UnweightedUndirectedGraph.py) -/

/-- The adjacency matrix `adj_matrix` of `UnweightedUndirectedGraph`, as a
Boolean matrix (`1` entries become `true`). -/
structure UUGraph where
  num_nodes : Nat
  adj : Nat → Nat → Bool

/-- `__init__`: all-zero adjacency matrix. -/
def UUGraph.empty (n : Nat) : UUGraph := ⟨n, fun _ _ => false⟩

/-- `add_edge`: sets `adj_matrix[u][v] = adj_matrix[v][u] = 1`. -/
def UUGraph.add_edge (g : UUGraph) (u v : Nat) : UUGraph :=
  { g with adj := fun i j => if (i = u ∧ j = v) ∨ (i = v ∧ j = u) then true else g.adj i j }

/-- `from_nx`: add every edge of the edge list. -/
def UUGraph.fromEdges (n : Nat) (edges : List (Nat × Nat)) : UUGraph :=
  edges.foldl (fun g e => g.add_edge e.1 e.2) (UUGraph.empty n)

/-- `are_adjacent`: constant-time adjacency test. -/
def UUGraph.are_adjacent (g : UUGraph) (u v : Nat) : Bool := g.adj u v

/-- Distance matrix type (`self.dist`). -/
abbrev DMat := Nat → Nat → Cost

/-- Next-hop matrix type (`self.next_node`); `-1` is the sentinel. -/
abbrev NMat := Nat → Nat → Int

/-- Point update of a matrix, modelling `M[i][j] = v`. -/
def matUpd {α : Type} (M : Nat → Nat → α) (i j : Nat) (v : α) : Nat → Nat → α :=
  fun a b => if a = i ∧ b = j then v else M a b

/-- `floyd_warshall` initialisation of `self.dist`. -/
def fwInitD (g : UUGraph) : DMat :=
  fun i j => if i = j then some 0 else if g.adj i j then some 1 else none

/-- `floyd_warshall` initialisation of `self.next_node`. -/
def fwInitN (g : UUGraph) : NMat :=
  fun i j => if i = j then -1 else if g.adj i j then (j : Int) else -1

/-- One body execution `if dist[i][j] > dist[i][k] + dist[k][j]: ...` of the
triple loop (in-place update of both matrices). -/
def fwUpd (dn : DMat × NMat) (k i j : Nat) : DMat × NMat :=
  if cLt (cAdd (dn.1 i k) (dn.1 k j)) (dn.1 i j) then
    (matUpd dn.1 i j (cAdd (dn.1 i k) (dn.1 k j)), matUpd dn.2 i j (dn.2 i k))
  else dn

/-- The `for j in range(n)` loop for fixed `k, i`. -/
def fwLoopJ (n k i : Nat) (dn : DMat × NMat) : DMat × NMat :=
  (List.range n).foldl (fun dn j => fwUpd dn k i j) dn

/-- The `for i in range(n)` loop for fixed `k`. -/
def fwLoopI (n k : Nat) (dn : DMat × NMat) : DMat × NMat :=
  (List.range n).foldl (fun dn i => fwLoopJ n k i dn) dn

/-- `floyd_warshall`: the full triple loop over the initial matrices. -/
def floydWarshall (g : UUGraph) : DMat × NMat :=
  (List.range g.num_nodes).foldl (fun dn k => fwLoopI g.num_nodes k dn)
    (fwInitD g, fwInitN g)

/-- The `while start != end` reconstruction loop of `get_shortest_path`.
The Python loop is unbounded; it is embedded with explicit fuel (the caller
passes the computed distance, which is exactly the number of iterations the
loop performs on a well-formed table, as proved below).  Exhausted fuel with
`start ≠ end` corresponds to a diverging Python loop and returns `[]` here. -/
def pathWalk (nxt : NMat) (endN : Nat) : Nat → Nat → List Nat → List Nat
  | 0, start, acc => if start = endN then acc else []
  | fuel + 1, start, acc =>
    if start = endN then acc
    else
      let s' := nxt start endN
      if s' = -1 then []
      else pathWalk nxt endN fuel s'.toNat (acc ++ [s'.toNat])

/-- `get_shortest_path` over already-computed matrices (`Router.__init__`
always runs `floyd_warshall` first, so the `dist is None` ValueError branch
is unreachable in the flows verified here). -/
def getShortestPath (dn : DMat × NMat) (start endN : Nat) : List Nat :=
  match dn.1 start endN with
  | none => []
  | some c => pathWalk dn.2 endN c start [start]

/-! ### Router (src/router/Router.py) -/

/-- The three possible results of `choice([control, target, -1])`. -/
inductive RChoice | ctrl | tgt | both
deriving DecidableEq, Repr

/-- The value the random draw yields in `__swap_strategy_by_lookahead`. -/
def RChoice.val (c : RChoice) (control target : Nat) : Int :=
  match c with
  | .ctrl => (control : Int)
  | .tgt => (target : Int)
  | .both => -1

/-- A CNOT triple `(control, target, seq)`. -/
abbrev Cnot := Nat × Nat × Nat

/-- The window `self.cnots_list[begin:min(begin + self.lookahead, len)]`. -/
def lookWindow (cnots : List Cnot) (lookahead beginI : Nat) : List Cnot :=
  (cnots.drop beginI).take lookahead

/-- `control_count` of `__swap_strategy_by_lookahead`. -/
def controlCount (ops : List Cnot) (control : Nat) : Nat :=
  ops.countP (fun x => decide (x.1 = control ∨ x.2.1 = control))

/-- `__swap_strategy_by_lookahead`; the `oracle` argument stands for the
single `random.choice([control, target, -1])` draw. -/
def swapStrategyByLookahead (cnots : List Cnot) (lookahead : Nat) (oracle : RChoice)
    (beginI control target : Nat) : Int :=
  let operations := lookWindow cnots lookahead beginI
  let control_count := controlCount operations control
  let target_count := controlCount operations target
  if control_count = 0 ∧ target_count = 0 then oracle.val control target
  else if control_count = 0 ∨ control_count ≥ 2 * target_count then (target : Int)
  else if target_count = 0 ∨ target_count ≥ 2 * control_count then (control : Int)
  else -1

/-- The mutable mapping pair `(l_to_p, p_to_l)` owned by the router. -/
abbrev MapState := List Nat × List Nat

/-- One iteration of the `for node in path` loop of `__move_through_path`:
swaps `qubit` (at `qubit_node`) with the occupant of `node`, in the exact
assignment order of the source. -/
def moveStep (st : MapState) (qubit qubit_node node : Nat) : MapState × (Nat × Nat) :=
  let swap_qubit := st.2.getD node 0
  let p2l := (st.2.set node qubit).set qubit_node swap_qubit
  let l2p := (st.1.set qubit node).set swap_qubit qubit_node
  ((l2p, p2l), (qubit, swap_qubit))

/-- `__move_through_path`: walks `qubit` along `path`, returning the updated
mapping, the recorded swap list and the swap count. -/
def moveThroughPath (st : MapState) (qubit qubit_node : Nat) (path : List Nat) :
    MapState × List (Nat × Nat) × Nat :=
  match path with
  | [] => (st, [], 0)
  | node :: rest =>
    let step := moveStep st qubit qubit_node node
    let tail := moveThroughPath step.1 qubit node rest
    (tail.1, step.2 :: tail.2.1, tail.2.2 + 1)

/-- The `strategy == -1` slice computation of `__apply_cnot`
(`shortest_path_len` is `len(shortest_path)`, i.e. a node count). -/
def splitPaths (shortest_path : List Nat) : List Nat × List Nat :=
  let len := shortest_path.length
  let control_edges := if len % 2 = 0 then len / 2 else (len + 1) / 2
  ((shortest_path.take control_edges).drop 1, (shortest_path.drop control_edges).dropLast)

/-- The pair `(control_path, target_path)` selected by the three sequential
`if strategy == ...` blocks (a later matching block overwrites an earlier
one, so `target` is checked first here). -/
def pathsForStrategy (strategy : Int) (control target : Nat) (shortest_path : List Nat) :
    List Nat × List Nat :=
  if strategy = (target : Int) then ([], ((shortest_path.drop 1).dropLast).reverse)
  else if strategy = (control : Int) then ((shortest_path.drop 1).dropLast, [])
  else splitPaths shortest_path

/-- `__apply_cnot`: returns the updated mapping, the recorded
`[control_swaps, target_swaps]` pair and the swap count. -/
def applyCnot (g : UUGraph) (dn : DMat × NMat) (cnots : List Cnot) (lookahead : Nat)
    (oracle : RChoice) (st : MapState) (control target i : Nat) :
    MapState × List (List (Nat × Nat)) × Nat :=
  let control_node := st.1.getD control 0
  let target_node := st.1.getD target 0
  if g.are_adjacent control_node target_node then (st, [], 0)
  else
    let shortest_path := getShortestPath dn control_node target_node
    let strategy := swapStrategyByLookahead cnots lookahead oracle i control target
    let paths := pathsForStrategy strategy control target shortest_path
    let cres := moveThroughPath st control control_node paths.1
    let tres := moveThroughPath cres.1 target target_node paths.2
    (tres.1, [cres.2.1, tres.2.1], cres.2.2 + tres.2.2)

/-- The router object after `__init__` (the mapper's arrays are copied and
`floyd_warshall` has been run on the topology). -/
structure Router where
  l2p : List Nat
  p2l : List Nat
  cnots : List Cnot
  lookahead : Nat
  graph : UUGraph
  dn : DMat × NMat

/-- `Router.__init__`. -/
def Router.init (topology : UUGraph) (l2p p2l : List Nat) (cnots : List Cnot)
    (lookahead : Nat) : Router :=
  { l2p := l2p, p2l := p2l, cnots := cnots, lookahead := lookahead,
    graph := topology, dn := floydWarshall topology }

/-- The loop body fold of `route_circuit_portion` over an explicit triple
list; the oracle is indexed by the position of the triple in the full list so
that each `__apply_cnot` call sees an independent random draw. -/
def routeLoop (r : Router) (oracle : Nat → RChoice) :
    List Cnot → Nat → MapState → MapState × List (List (List (Nat × Nat))) × Nat
  | [], _, st => (st, [], 0)
  | (c, t, i) :: rest, pos, st =>
    let res := applyCnot r.graph r.dn r.cnots r.lookahead (oracle pos) st c t i
    let tail := routeLoop r oracle rest (pos + 1) res.1
    (tail.1, res.2.1 :: tail.2.1, res.2.2 + tail.2.2)

/-- `route_circuit_portion(m)`: routes `self.cnots_list[:m]`, returning the
final mapping, the per-gate swap records and the total swap count. -/
def routeCircuitPortion (r : Router) (oracle : Nat → RChoice) (m : Nat) :
    MapState × List (List (List (Nat × Nat))) × Nat :=
  routeLoop r oracle (r.cnots.take m) 0 (r.l2p, r.p2l)

/-- `route_circuit`: routes the whole list. -/
def routeCircuit (r : Router) (oracle : Nat → RChoice) :
    MapState × List (List (List (Nat × Nat))) × Nat :=
  routeCircuitPortion r oracle r.cnots.length

/-! ### Mapper base and MapperUpdater (src/mapper/base) -/

/-- A mapper's mapping pair (`Mapper.l_to_p` / `Mapper.p_to_l`). -/
structure Mapper where
  l2p : List Nat
  p2l : List Nat
deriving DecidableEq, Repr

/-- `Mapper.__init__`: identity mapping on `qubits` entries. -/
def Mapper.basic (qubits : Nat) : Mapper :=
  ⟨List.range qubits, List.range qubits⟩

/-- `MapperUpdater.update_mapping`: routes once from the given mapper, routes
again from the first routing's final mapping, and keeps whichever mapper the
swap-count comparison selects.  `o1`/`o2` are the oracles of the two routing
rounds. -/
def updateMapping (topology : UUGraph) (mapper : Mapper) (cnots : List Cnot)
    (lookahead : Nat) (o1 o2 : Nat → RChoice) : Mapper :=
  let r := Router.init topology mapper.l2p mapper.p2l cnots lookahead
  let res1 := routeCircuit r o1
  let swaps_count := res1.2.2
  let new_mapper : Mapper := ⟨res1.1.1, res1.1.2⟩
  let r2 := Router.init topology new_mapper.l2p new_mapper.p2l cnots lookahead
  let res2 := routeCircuit r2 o2
  if res2.2.2 < swaps_count then new_mapper else mapper

/-! ### Driver (src/transform/routing_transform.py) -/

/-- One `interaction_list.append(...)` candidate of `get_interaction_list`
(the inner `for j in range(i + 1, len(wires))` loop is modelled as the full
range guarded by `i < j`, which appends the same pairs in the same order). -/
def interactionPairStep (wires : List Nat) (i : Nat) (acc : List Cnot × Nat)
    (j : Nat) : List Cnot × Nat :=
  if i < j then (acc.1 ++ [(wires.getD i 0, wires.getD j 0, acc.2)], acc.2 + 1)
  else acc

/-- Processing one gate of the tape in `get_interaction_list`. -/
def interactionGateStep (acc : List Cnot × Nat) (wires : List Nat) :
    List Cnot × Nat :=
  if wires.length ≥ 2 then
    (List.range wires.length).foldl (fun acc i =>
      (List.range wires.length).foldl (interactionPairStep wires i) acc) acc
  else acc

/-- `get_interaction_list`: one triple per unordered wire pair of every
≥2-wire gate, `op_count` incremented per pair. -/
def getInteractionList (ops : List (List Nat)) : List Cnot :=
  (ops.foldl interactionGateStep ([], 0)).1

/-- The running pair counter equals the list length and every triple stores
its own position as `seq`. -/
def SeqAligned (acc : List Cnot × Nat) : Prop :=
  acc.2 = acc.1.length ∧ ∀ p, p < acc.1.length → (acc.1.getD p (0, 0, 0)).2.2 = p

/-- An operation of the rewritten stream produced by `__update_circuit`:
either an inserted `qml.SWAP` on two physical wires, or an input gate with
its wires remapped through the live map. -/
inductive ROp
  | swapG (a b : Nat)
  | gate (wires : List Nat)
deriving DecidableEq, Repr

/-- The `for (q1, q2) in movements` replay loop of `__update_circuit`:
emits a SWAP on the current wires of `q1,q2` and transposes the live map. -/
def applyMovements (cw : List Nat) (movs : List (Nat × Nat)) : List Nat × List ROp :=
  movs.foldl (fun (acc : List Nat × List ROp) m =>
    let w1 := acc.1.getD m.1 0
    let w2 := acc.1.getD m.2 0
    ((acc.1.set m.1 w2).set m.2 w1, acc.2 ++ [ROp.swapG w1 w2])) (cw, [])

/-- `__update_circuit`: rewrites the gate stream, inserting the recorded
SWAPs in front of each multi-wire gate. -/
def updateCircuit (ops : List (List Nat)) (swaps : List (List (List (Nat × Nat))))
    (qubits : Nat) : List ROp :=
  (ops.foldl (fun (acc : List Nat × List (List (List (Nat × Nat))) × List ROp) wires =>
    let cw := acc.1
    if wires.length = 1 then
      (cw, acc.2.1, acc.2.2 ++ [ROp.gate (wires.map (fun w => cw.getD w 0))])
    else
      let sfc := acc.2.1.headD []
      let rest := acc.2.1.tail
      if sfc.length ≠ 0 then
        let r1 := applyMovements cw (sfc.getD 0 [])
        let r2 := applyMovements r1.1 (sfc.getD 1 [])
        (r2.1, rest, acc.2.2 ++ r1.2 ++ r2.2 ++
          [ROp.gate (wires.map (fun w => r2.1.getD w 0))])
      else
        (cw, rest, acc.2.2 ++ [ROp.gate (wires.map (fun w => cw.getD w 0))])
    ) (List.range qubits, swaps, [])).2.2

/-! ### heapq and the majority mapper (src/mapper/majority) -/

/-- `KeyValMaxHeapObj`: a key paired with the comparison value. -/
structure KeyVal where
  key : Nat
  val : Nat
deriving DecidableEq, Repr

/-- `MaxHeapObj.__lt__`: reversed comparison, `self.val > other.val`. -/
def kvLt (a b : KeyVal) : Bool := decide (b.val < a.val)

/-- CPython `heapq._siftdown` (the `while pos > startpos` loop), with the
`newitem` read out of `heap[pos]` passed explicitly.  The loop position
strictly decreases, so the explicit fuel (callers pass the starting `pos`)
always suffices; it only makes the recursion structural. -/
def siftdownA {α : Type} (lt : α → α → Bool) : Nat → List α → Nat → Nat → α → List α
  | 0, heap, _, pos, newitem => heap.set pos newitem
  | fuel + 1, heap, startpos, pos, newitem =>
    if startpos < pos then
      let parentpos := (pos - 1) / 2
      let parent := heap.getD parentpos newitem
      if lt newitem parent then
        siftdownA lt fuel (heap.set pos parent) startpos parentpos newitem
      else heap.set pos newitem
    else heap.set pos newitem

/-- CPython `heapq._siftup` (the `while childpos < endpos` loop followed by
the final `_siftdown` call); the fuel (callers pass `endpos`) bounds the
strictly-increasing loop position. -/
def siftupA {α : Type} (lt : α → α → Bool) : Nat → List α → Nat → Nat → Nat → α → List α
  | 0, heap, startpos, pos, _, newitem =>
    siftdownA lt pos (heap.set pos newitem) startpos pos newitem
  | fuel + 1, heap, startpos, pos, endpos, newitem =>
    if 2 * pos + 1 < endpos then
      let childpos := 2 * pos + 1
      let c := if childpos + 1 < endpos
          ∧ ¬ lt (heap.getD childpos newitem) (heap.getD (childpos + 1) newitem)
        then childpos + 1 else childpos
      siftupA lt fuel (heap.set pos (heap.getD c newitem)) startpos c endpos newitem
    else siftdownA lt pos (heap.set pos newitem) startpos pos newitem

/-- `heapq.heappush`. -/
def heappush {α : Type} (lt : α → α → Bool) (heap : List α) (item : α) : List α :=
  siftdownA lt heap.length (heap ++ [item]) 0 heap.length item

/-- `heapq.heappop`; `none` models the `IndexError` on an empty heap. -/
def heappop {α : Type} (lt : α → α → Bool) : List α → Option (α × List α)
  | [] => none
  | [x] => some (x, [])
  | x :: y :: t =>
    let last := (y :: t).getLast (by simp)
    let rest := x :: (y :: t).dropLast
    some (x, siftupA lt rest.length (rest.set 0 last) 0 0 rest.length last)

/-- The per-qubit partner sets `interact[·]` of `MajorityMapper.__init__`. -/
def interactSets (cnots : List Cnot) : Nat → Finset ℕ :=
  cnots.foldl (fun f c =>
    let f1 := fun q => if q = c.1 then insert c.2.1 (f q) else f q
    fun q => if q = c.2.1 then insert c.1 (f1 q) else f1 q) (fun _ => ∅)

/-- The neighbour sets of the `nx.Graph` connectivity handed to the mappers
(the adjacency view `self.connectivity.adj` read at node `u`). -/
def nxNeighbours (edges : List (Nat × Nat)) : Nat → Finset ℕ :=
  edges.foldl (fun f e =>
    let f1 := fun q => if q = e.1 then insert e.2 (f q) else f q
    fun q => if q = e.2 then insert e.1 (f1 q) else f1 q) (fun _ => ∅)

/-- Logical-qubit heap of `MajorityMapper.__init__` lines 42-45 (one push
per qubit, keyed by the partner count), as those lines would execute once
the name-binding defect documented at `majorityMapperInit` is repaired so
that `MaxHeap` and `KeyValMaxHeapObj` denote the classes.  As the code is
written, line 42 raises `TypeError` before any push happens. -/
def majorityLogicalHeap (cnots : List Cnot) (qubits : Nat) : List KeyVal :=
  (List.range qubits).foldl
    (fun h q => heappush kvLt h ⟨q, (interactSets cnots q).card⟩) []

/-- Physical-node heap of `MajorityMapper.__init__` lines 48-55, post
repair (one push per node, keyed by the neighbour count).  Line 50 holds a
further defect of its own: `self.connectivity.adj(u)` CALLS networkx's
`Graph.adj`, a non-callable `AdjacencyView`, so even with the classes
imported the comprehension would raise `TypeError`; the repaired reading
embedded here is the subscript `self.connectivity.adj[u]`. -/
def majorityNodeHeap (n : Nat) (edges : List (Nat × Nat)) : List KeyVal :=
  (List.range n).foldl
    (fun h u => heappush kvLt h ⟨u, (nxNeighbours edges u).card⟩) []

/-- The `for _ in range(self.qubits)` loop of
`MajorityMapper.compute_mapping`: pop one qubit and one node, assign, and
recurse; `none` models a pop from an exhausted heap or an out-of-range
`p_to_l[node]` store. -/
def majorityLoop : Nat → List KeyVal → List KeyVal → List Nat × List Nat →
    Option (List Nat × List Nat)
  | 0, _, _, st => some st
  | k + 1, hq, hn, st =>
    match heappop kvLt hq with
    | none => none
    | some (qobj, hq') =>
      match heappop kvLt hn with
      | none => none
      | some (nobj, hn') =>
        if nobj.key < st.2.length then
          majorityLoop k hq' hn' (st.1.set qobj.key nobj.key, st.2.set nobj.key qobj.key)
        else none

/-- Heap construction plus `compute_mapping` of `MajorityMapper`, post
repair: base-mapper identity arrays followed by the assignment loop.  The
real constructor never reaches this code — see `majorityMapperInit` — so
this post-repair model is used only for the conditional completion
conjunct of the permutation invariant, which holds for every completing
run of the repaired mapper, a superset of the real program's (empty) set
of completions. -/
def computeMappingMaj (n : Nat) (edges : List (Nat × Nat)) (cnots : List Cnot)
    (qubits : Nat) : Option (List Nat × List Nat) :=
  majorityLoop qubits (majorityLogicalHeap cnots qubits) (majorityNodeHeap n edges)
    (List.range qubits, List.range qubits)

/-- Embeds `MajorityMapper.__init__` as the code actually runs.  The
repository has no `__init__.py` files, so in `MajorityMapper.py` the
statements `from mapper.majority.utils import MaxHeap` and
`from mapper.majority.utils import KeyValMaxHeapObj` (lines 3-4) bind the
submodules `MaxHeap.py` and `KeyValMaxHeapObj.py`, not the classes inside
them; line 42, `self.heap = MaxHeap()`, therefore raises
`TypeError: 'module' object is not callable` (line 44's
`KeyValMaxHeapObj(q, ...)` and line 50's call of the non-callable
`self.connectivity.adj` would fail the same way).  Construction crashes
before `compute_mapping` ever runs, on every input, so the MAJORITY
strategy never yields a placement. -/
def majorityMapperInit (n : Nat) (edges : List (Nat × Nat)) (cnots : List Cnot)
    (qubits : Nat) : Option (List Nat × List Nat) :=
  none

/-! ### RandomMapper (src/mapper/random/RandomMapper.py) -/

/-- `Mapper.physic_to_logical`: `for q, v in enumerate(l_to_p): p_to_l[v] = q`,
updating the existing `p_to_l` array in place. -/
def physicToLogical (l2p p2l : List Nat) : List Nat :=
  l2p.enum.foldl (fun acc qv => acc.set qv.2 qv.1) p2l

/-- `RandomMapper.compute_mapping`: `rnd.shuffle` permutes the identity
`l_to_p` in place (the permutation chosen by the external RNG is the
`shuffled` parameter), then `physic_to_logical()` rebuilds `p_to_l` over the
identity-initialised array. -/
def randomMapperMaps (qubits : Nat) (shuffled : List Nat) : List Nat × List Nat :=
  (shuffled, physicToLogical shuffled (List.range qubits))

/-! ### Specification-side graph walks and the Floyd–Warshall invariants -/

/-- `a ≤ b` on distances (`none` = infinity). -/
def cLe (a b : Cost) : Prop :=
  match a, b with
  | _, none => True
  | none, some _ => False
  | some x, some y => x ≤ y

/-- `a ≤ n` for a finite bound (in particular `a` must be finite). -/
def cLeN (a : Cost) (n : Nat) : Prop := cLe a (some n)

/-- A walk of `n` edges from `u` to `v` in `g`. -/
inductive PWalk (g : UUGraph) : Nat → Nat → Nat → Prop
  | nil (u : Nat) : PWalk g u u 0
  | cons {u v w n : Nat} : g.adj u v = true → PWalk g v w n → PWalk g u w (n + 1)

/-- A walk of `n` edges from `u` to `v` whose interior nodes (every node
except the two endpoints) all lie in `K`. -/
inductive KWalk (g : UUGraph) (K : List Nat) : Nat → Nat → Nat → Prop
  | nil (u : Nat) : KWalk g K u u 0
  | last {u v : Nat} : g.adj u v = true → KWalk g K u v 1
  | step {u v w n : Nat} : g.adj u v = true → v ∈ K → KWalk g K v w (n + 1) →
      KWalk g K u w (n + 2)

/-- Every edge endpoint is a genuine node index. -/
def UUGraph.WF (g : UUGraph) : Prop :=
  ∀ i j, g.adj i j = true → i < g.num_nodes ∧ j < g.num_nodes

/-- `k` is the length of a shortest walk between `u` and `v`. -/
def IsGraphDist (g : UUGraph) (u v k : Nat) : Prop :=
  PWalk g u v k ∧ ∀ m, PWalk g u v m → k ≤ m

/-- Soundness invariant of the Floyd–Warshall state: every finite
off-diagonal entry `d i j` is witnessed by a walk of that exact length with
interior in `K`, whose first hop is recorded in `next_node[i][j]`. -/
def FWSound (g : UUGraph) (K : List Nat) (d : DMat) (nxt : NMat) : Prop :=
  ∀ i j c, i ≠ j → d i j = some c →
    ∃ m : Nat, nxt i j = (m : Int) ∧ g.adj i m = true ∧
      ((c = 1 ∧ m = j) ∨ (∃ c', c = c' + 2 ∧ m ∈ K ∧ KWalk g K m j (c' + 1)))

/-- Completeness invariant: `d i j` is a lower bound for every walk with
interior in `K`. -/
def FWComplete (g : UUGraph) (K : List Nat) (d : DMat) : Prop :=
  ∀ i j n, KWalk g K i j n → cLeN (d i j) n

/-- The diagonal stays zero. -/
def FWDiag (d : DMat) : Prop := ∀ i, d i i = some 0

/-- The combined Floyd–Warshall loop invariant. -/
def FWInv (g : UUGraph) (K : List Nat) (dn : DMat × NMat) : Prop :=
  FWDiag dn.1 ∧ FWSound g K dn.1 dn.2 ∧ FWComplete g K dn.1

/-! ### Concrete instances used by the claims -/

set_option maxRecDepth 40000

/-- The 6-node line topology `0—1—2—3—4—5`. -/
def line6 : UUGraph := UUGraph.fromEdges 6 [(0, 1), (1, 2), (2, 3), (3, 4), (4, 5)]

/-- Router on `line6` with identity placement, two CNOTs `(0,5)` and the
driver's lookahead 10.  Both lookahead counts are 2, so the split-evenly
branch of `__apply_cnot` is taken deterministically for the first gate
(the random oracle is never consulted). -/
def r6 : Router := Router.init line6 (List.range 6) (List.range 6) [(0, 5, 0), (0, 5, 1)] 10

/-- Two physical nodes, no edges: a disconnected topology. -/
def disc2 : UUGraph := UUGraph.fromEdges 2 []

/-- Router on `disc2` with identity placement and one CNOT crossing the two
components. -/
def rdisc : Router := Router.init disc2 [0, 1] [0, 1] [(0, 1, 0)] 10

/-! ### MAX_PAIRS placement: QubitInteractionsHandler

Python sets of small naturals are modelled as duplicate-free lists kept in
ascending order, which is the iteration order of CPython sets of small
ints at the sizes exercised here.  The interaction matrix is a total
function; Python would raise `IndexError` on an out-of-range CNOT endpoint
during `__init__`, and the theorems about completed runs take the
well-formedness of the CNOT list as a hypothesis. -/

/-- State of `QubitInteractionsHandler`: the qubit count, the still-free
qubits, and the symmetric interaction-count matrix built from the CNOT
list (`C[i][j] += 1; C[j][i] += 1` per triple, so a degenerate self-CNOT
would add 2 on the diagonal). -/
structure QIH where
  qubits : Nat
  free_qubits : List Nat
  C : Nat → Nat → Nat

def QIH.init (cnots : List Cnot) (qubits : Nat) : QIH :=
  { qubits := qubits
    free_qubits := List.range qubits
    C := cnots.foldl
      (fun f c => fun a b =>
        (if a = c.1 ∧ b = c.2.1 then 1 else 0)
          + (if a = c.2.1 ∧ b = c.1 then 1 else 0) + f a b)
      (fun _ _ => 0) }

/-- Row `r` of `interactions_count` as the pair list
`[(j, C[r][j]) for j in range(qubits)]`. -/
def QIH.row (h : QIH) (r : Nat) : List (Nat × Nat) :=
  (List.range h.qubits).map (fun j => (j, h.C r j))

/-- Insertion into a list kept in descending order of the second
component; an element goes after every entry with a greater-or-equal
count, which makes the overall sort stable, as Python's `list.sort` is. -/
def insertDesc (x : Nat × Nat) : List (Nat × Nat) → List (Nat × Nat)
  | [] => [x]
  | y :: ys => if x.2 ≤ y.2 then y :: insertDesc x ys else x :: y :: ys

/-- Stable sort by count, descending:
`list.sort(key=lambda e: e[1], reverse=True)`. -/
def sortDesc (l : List (Nat × Nat)) : List (Nat × Nat) :=
  l.foldl (fun acc x => insertDesc x acc) []

def QIH.sortedRow (h : QIH) (r : Nat) : List (Nat × Nat) :=
  sortDesc (h.row r)

/-- Loop body of `__get_first_d_free_non_zero`: walk the count-sorted pair
list, stop at the first zero count, collect free qubits, and stop once `d`
of them have been collected (`found == d` is tested after the increment,
so `d = 0` collects every free qubit with a non-zero count).  The rows fed
to it have pairwise distinct first components, so the Python `set.add` is
an append here. -/
def getFirstDAux (free : List Nat) (d : Nat) :
    List (Nat × Nat) → Nat → List Nat → List Nat
  | [], _, res => res
  | p :: rest, found, res =>
    if p.2 = 0 then res
    else if p.1 ∈ free then
      (if found + 1 = d then res ++ [p.1]
       else getFirstDAux free d rest (found + 1) (res ++ [p.1]))
    else getFirstDAux free d rest found res

def QIH.getFirstD (h : QIH) (d : Nat) (l : List (Nat × Nat)) : List Nat :=
  getFirstDAux h.free_qubits d l 0 []

/-- Python list indexing: an index in `[0, len)` is used as is, an index
in `[-len, 0)` wraps to `len + i`, anything else raises `IndexError`. -/
def pyIdx (len : Nat) (i : Int) : Option Nat :=
  if 0 ≤ i ∧ i < (len : Int) then some i.toNat
  else if -(len : Int) ≤ i ∧ i < 0 then some ((len : Int) + i).toNat
  else none

/-- Python list assignment `l[i] = v` on a list of ints. -/
def pySetI (l : List Int) (i : Int) (v : Int) : Option (List Int) :=
  match pyIdx l.length i with
  | none => none
  | some k => some (l.set k v)

/-- Method `d_interactions(qubit, d)`: sort `qubit`'s row by count
descending and take the first `d` free qubits with non-zero counts.  The
row access is a Python list index, so `-1` reads the last row. -/
def QIH.d_interactions (h : QIH) (q : Int) (d : Nat) : Option (List Nat) :=
  match pyIdx h.qubits q with
  | none => none
  | some r => some (h.getFirstD d (h.sortedRow r))

/-- Score used by `qubit_with_most_d_interactions_from_set`: take the
first `d` entries of the full count-sorted row (free or not) and sum the
counts of those whose partner is still free.  `for k in range(d)` indexes
the row directly, so `d > qubits` raises `IndexError`. -/
def QIH.score (h : QIH) (d : Nat) (i : Nat) : Option Int :=
  if d ≤ h.qubits then
    some (((h.sortedRow i).take d).foldl
      (fun t p => if p.1 ∈ h.free_qubits then t + (p.2 : Int) else t) 0)
  else none

/-- One step of the `max_i / max_val` scan; the strict `>` keeps the
first, i.e. lowest-index, maximum. -/
def fsStep (h : QIH) (d : Nat) (target : List Nat)
    (acc : Option (Int × Int)) (i : Nat) : Option (Int × Int) :=
  match acc with
  | none => none
  | some m =>
    if i ∈ target then
      match h.score d i with
      | none => none
      | some total => if m.2 < total then some ((i : Int), total) else some m
    else some m

def QIH.fromSetFold (h : QIH) (d : Nat) (target : List Nat) :
    Option (Int × Int) :=
  (List.range h.qubits).foldl (fsStep h d target) (some (-1, -1))

/-- Method `qubit_with_most_d_interactions_from_set(d, target)`: scan `i`
over `range(qubits)` keeping only `i ∈ target` (membership in
`free_qubits` is not required), score each with `QIH.score`, keep the
first maximum, and return it with the first `d` free non-zero entries of
its own sorted row (a `-1` candidate reads the last row, Python's
`pairs[-1]`; on an empty matrix that access would itself raise). -/
def QIH.from_set (h : QIH) (d : Nat) (target : List Nat) :
    Option (Int × List Nat) :=
  match h.fromSetFold d target with
  | none => none
  | some m =>
    match pyIdx h.qubits m.1 with
    | none => none
    | some r => some (m.1, h.getFirstD d (h.sortedRow r))

/-- Method `qubit_with_most_d_interactions(d)` delegates with
`target = free_qubits`. -/
def QIH.most (h : QIH) (d : Nat) : Option (Int × List Nat) :=
  h.from_set d h.free_qubits

/-- Method `map_qubit(q)`: `if q not in self.n: return`, then the
(tolerant) `set.discard`. -/
def QIH.map_qubit (h : QIH) (q : Int) : QIH :=
  if 0 ≤ q ∧ q < (h.qubits : Int) then
    { h with free_qubits := h.free_qubits.erase q.toNat }
  else h

/-! ### MAX_PAIRS placement: FreeTopologyNodesHandler -/

/-- State of `FreeTopologyNodesHandler`: free nodes and the per-node
free-neighbour sets.  `free_neighbours` is total; Python indexes a list of
length `n` and every reachable access is a graph node. -/
structure FTNH where
  n : Nat
  free_nodes : List Nat
  free_neighbours : Nat → List Nat

/-- Neighbour list of `v` in the undirected edge list, ascending. -/
def nhList (edges : List (Nat × Nat)) (n v : Nat) : List Nat :=
  (List.range n).filter
    (fun u => edges.any (fun e => decide ((e.1 = v ∧ e.2 = u) ∨ (e.1 = u ∧ e.2 = v))))

def FTNH.init (n : Nat) (edges : List (Nat × Nat)) : FTNH :=
  { n := n, free_nodes := List.range n, free_neighbours := nhList edges n }

/-- Python `max(lst, key=lambda el: el[1])`: the first element with the
greatest second component; `ValueError` on an empty list. -/
def maxBySnd : List (Nat × Nat) → Option (Nat × Nat)
  | [] => none
  | x :: xs => some (xs.foldl (fun b y => if b.2 < y.2 then y else b) x)

/-- Method `node_with_most_free_neighbours_set(nodes)`: maximise the
number of free neighbours over the given nodes and return the winner
together with its (live) free-neighbour set. -/
def FTNH.mostFreeSet (h : FTNH) (nodes : List Nat) : Option (Nat × List Nat) :=
  match maxBySnd (nodes.map (fun v => (v, (h.free_neighbours v).length))) with
  | none => none
  | some p => some (p.1, h.free_neighbours p.1)

def FTNH.mostFree (h : FTNH) : Option (Nat × List Nat) :=
  h.mostFreeSet h.free_nodes

/-- Method `occupy_node(v)`: `free_nodes.remove(v)` (a `KeyError` if `v`
is not free) and then discard `v` from every node's free-neighbour set. -/
def FTNH.occupy (h : FTNH) (v : Nat) : Option FTNH :=
  if v ∈ h.free_nodes then
    some { h with free_nodes := h.free_nodes.erase v,
                  free_neighbours := fun w => (h.free_neighbours w).erase v }
  else none

/-! ### MAX_PAIRS placement: compute_mapping -/

/-- Mutable state of `MaxInteractingPairsMapping.compute_mapping`. -/
structure MPState where
  l2p : List Int
  p2l : List Int
  qih : QIH
  fnh : FTNH
  queue : List (Nat × Int)
  to_do : Int

/-- Outcome of `compute_mapping`: normal completion carrying the two
maps, an uncaught Python exception, or an exhausted step budget. -/
inductive MPResult where
  | ok (l2p p2l : List Int)
  | crash
  | outOfFuel
deriving DecidableEq

/-- Inner `for i in range(iters)` loop of `compute_mapping` (steps
5.5-5.9).  `node_neighbours` is an alias of `free_neighbours[node]`, so it
is re-read from the handler on every iteration; the 5.8 discard on it is
then subsumed by `occupy_node`, which already removed `neighbour` from
every free-neighbour set.  `qubit_neighbours` is a fresh set and is
threaded explicitly; its `set.discard` of a `-1` sentinel is a no-op.
`map_qubit` is total, so it is applied inside the final record even though
Python calls it before `occupy_node`. -/
def mpInner (node : Nat) (qubit : Int) :
    Nat → List Nat → MPState → Option MPState
  | 0, _, st => some st
  | t + 1, qn, st =>
    match st.fnh.mostFreeSet (st.fnh.free_neighbours node) with
    | none => none
    | some nb =>
      match st.qih.from_set nb.2.length qn with
      | none => none
      | some nq =>
        if qubit = -1 then mpInner node qubit t qn st
        else
          match st.fnh.occupy nb.1 with
          | none => none
          | some fnh2 =>
            match pySetI st.l2p nq.1 (nb.1 : Int) with
            | none => none
            | some l2p2 =>
              match pySetI st.p2l (nb.1 : Int) nq.1 with
              | none => none
              | some p2l2 =>
                mpInner node qubit t
                  (if 0 ≤ nq.1 then qn.erase nq.1.toNat else qn)
                  { l2p := l2p2, p2l := p2l2,
                    qih := st.qih.map_qubit nq.1, fnh := fnh2,
                    queue := st.queue ++ [(nb.1, nq.1)],
                    to_do := st.to_do - 1 }

/-- Outer `while to_do != 0` loop of `compute_mapping`.  Fuel bounds the
number of outer iterations; any uncaught exception (`ValueError` from
`max` of an empty sequence, `KeyError` from `set.remove`, `IndexError`
from a list access) yields `.crash`.  In the seed branch the lookups, the
two stores, `occupy_node` and `map_qubit` happen in the Python order; the
inner iteration count reads `len(qubit_neighbours)` (the fresh set) and
`len(node_neighbours)` (the alias, hence after `occupy_node`). -/
def mpLoop : Nat → MPState → MPResult
  | 0, _ => .outOfFuel
  | fuel + 1, st =>
    if st.to_do = 0 then .ok st.l2p st.p2l
    else
      match st.queue with
      | [] =>
        match st.fnh.mostFree with
        | none => .crash
        | some nd =>
          match st.qih.most nd.2.length with
          | none => .crash
          | some qb =>
            match pySetI st.l2p qb.1 (nd.1 : Int) with
            | none => .crash
            | some l2p2 =>
              match pySetI st.p2l (nd.1 : Int) qb.1 with
              | none => .crash
              | some p2l2 =>
                match st.fnh.occupy nd.1 with
                | none => .crash
                | some fnh2 =>
                  match
                    mpInner nd.1 qb.1
                      (min qb.2.length (fnh2.free_neighbours nd.1).length)
                      qb.2
                      { l2p := l2p2, p2l := p2l2,
                        qih := st.qih.map_qubit qb.1, fnh := fnh2,
                        queue := st.queue, to_do := st.to_do - 1 } with
                  | none => .crash
                  | some st3 => mpLoop fuel st3
      | q0 :: queue2 =>
        match st.qih.d_interactions q0.2 (st.fnh.free_neighbours q0.1).length with
        | none => .crash
        | some qn =>
          match
            mpInner q0.1 q0.2
              (min qn.length (st.fnh.free_neighbours q0.1).length) qn
              { st with queue := queue2 } with
          | none => .crash
          | some st3 => mpLoop fuel st3

/-- Driver `MaxInteractingPairsMapping.__init__` plus `compute_mapping`:
both maps start as `[-1] * qubits` and the loop runs until `to_do == 0`.
There is no post-condition check and no raise anywhere in the method; the
file ends with the queue append. -/
def computeMappingMP (n : Nat) (edges : List (Nat × Nat)) (cnots : List Cnot)
    (qubits : Nat) (fuel : Nat) : MPResult :=
  mpLoop fuel
    { l2p := List.replicate qubits (-1), p2l := List.replicate qubits (-1),
      qih := QIH.init cnots qubits, fnh := FTNH.init n edges,
      queue := [], to_do := (qubits : Int) }

/-! ### Specification reading of qubit_with_most_d_interactions_from_set -/

/-- Score as the spec words it: the sum of `C[i][·]` over `i`'s top-`d`
still-free interaction partners (restrict the row to free partners first,
then keep the `d` best). -/
def specScore (h : QIH) (d : Nat) (i : Nat) : Nat :=
  ((sortDesc ((h.row i).filter (fun p => decide (p.1 ∈ h.free_qubits)))).take d).foldl
    (fun t p => t + p.2) 0

/-- Partner set as the spec words it: `i`'s top-`d` still-free partners. -/
def specPartners (h : QIH) (d : Nat) (i : Nat) : List Nat :=
  ((sortDesc ((h.row i).filter (fun p => decide (p.1 ∈ h.free_qubits)))).take d).map
    Prod.fst

/-- Selection as the spec words it: maximise the d-score over
`i ∈ S ∩ free_qubits`, ties broken by lowest index, and return the winner
with its partner set. -/
def specFromSet (h : QIH) (d : Nat) (target : List Nat) :
    Option (Int × List Nat) :=
  match (List.range h.qubits).filter
      (fun i => decide (i ∈ target ∧ i ∈ h.free_qubits)) with
  | [] => none
  | c :: cs =>
    some
      (((cs.foldl (fun b i => if specScore h d b < specScore h d i then i else b) c : Nat) : Int),
        specPartners h d
          (cs.foldl (fun b i => if specScore h d b < specScore h d i then i else b) c))

/-- Run invariant of `compute_mapping`: array lengths, `to_do` counts the
free qubits, the interaction matrix has a zero diagonal, queued qubits are
genuine qubit indices, and the already-placed qubits and nodes are in
mutual one-to-one correspondence away from the free sets. -/
structure MPInv (Q : Nat) (st : MPState) : Prop where
  hl2p : st.l2p.length = Q
  hp2l : st.p2l.length = Q
  hQ : st.qih.qubits = Q
  hfnd : st.qih.free_qubits.Nodup
  hflt : ∀ q ∈ st.qih.free_qubits, q < Q
  htodo : st.to_do = (st.qih.free_qubits.length : Int)
  hnnd : st.fnh.free_nodes.Nodup
  hdiag : ∀ q, st.qih.C q q = 0
  hqueue : ∀ p ∈ st.queue, 0 ≤ p.2 ∧ p.2 < (Q : Int)
  hpairs : ∀ q, q < Q → ¬ q ∈ st.qih.free_qubits →
    ∃ u, u < Q ∧ ¬ u ∈ st.fnh.free_nodes
      ∧ st.l2p.getD q (-1) = (u : Int) ∧ st.p2l.getD u (-1) = (q : Int)

/-- QIH of the C9 instance: three qubits, five CNOTs `(0,1)` and one
`(0,2)`, with qubit 1 already mapped, so `free_qubits = {0, 2}`. -/
def qih9 : QIH :=
  (QIH.init [(0, 1, 0), (0, 1, 1), (0, 1, 2), (0, 1, 3), (0, 1, 4), (0, 2, 5)] 3).map_qubit 1

/-- C1.  The claim is false on the code: on `line6` with gates
`CNOT(0,5); CNOT(0,5)` the split-evenly branch moves the target qubit
through the unreversed slice `[3, 4]`, so the rewritten stream contains a
SWAP acting on physical nodes 5 and 3, which are not joined by an edge
(the code's own `__apply_cnot` docstring promises adjacency, and the
`strategy == target` branch reverses the slice, so the missing reverse in
the split branch is a slip). -/
theorem split_branch_emits_nonadjacent_swap :
    ROp.swapG 5 3 ∈ updateCircuit [[0, 5], [0, 5]] (routeCircuit r6 (fun _ => .both)).2.1 6
      ∧ line6.are_adjacent 5 3 = false := by decide

/-- C2.  The claim is false on the code: immediately after the router
processes the first triple `(0,5,0)` on `line6` (split-evenly branch,
distance 5), logical qubit 0 sits on node 2 and logical qubit 5 on node 4,
and nodes 2 and 4 are not adjacent — the post-condition
`are_adjacent(L2P[c], L2P[t])` fails. -/
theorem split_branch_postcondition_violated :
    ((routeCircuitPortion r6 (fun _ => .both) 1).1.1.getD 0 0 = 2
        ∧ (routeCircuitPortion r6 (fun _ => .both) 1).1.1.getD 5 0 = 4)
      ∧ line6.are_adjacent 2 4 = false := by decide

/-! ### Cost arithmetic lemmas -/

theorem cLe_refl (a : Cost) : cLe a a := by cases a <;> simp [cLe]

theorem cLe_trans {a b c : Cost} (h1 : cLe a b) (h2 : cLe b c) : cLe a c := by
  cases a <;> cases b <;> cases c <;> simp_all [cLe] <;> omega

theorem cAdd_some {a b : Nat} : cAdd (some a) (some b) = some (a + b) := rfl

theorem cAdd_zero_right (a : Cost) : cAdd a (some 0) = a := by cases a <;> rfl

theorem cAdd_zero_left (a : Cost) : cAdd (some 0) a = a := by cases a <;> simp [cAdd]

theorem cLt_irrefl (a : Cost) : cLt a a = false := by cases a <;> simp [cLt]

theorem cLe_of_not_cLt {a b : Cost} (h : cLt a b = false) : cLe b a := by
  cases a <;> cases b <;> simp_all [cLt, cLe]

theorem cLt_imp_cLe {a b : Cost} (h : cLt a b = true) : cLe a b := by
  cases a <;> cases b <;> simp_all [cLt, cLe] <;> omega

theorem cAdd_fin {a b : Cost} {c : Nat} (h : cAdd a b = some c) :
    ∃ x y, a = some x ∧ b = some y ∧ c = x + y := by
  cases a with
  | none => simp [cAdd] at h
  | some x =>
    cases b with
    | none => simp [cAdd] at h
    | some y => exact ⟨x, y, rfl, rfl, (Option.some.inj h).symm⟩

theorem cLe_cAdd {a b : Cost} {x y : Nat} (ha : cLeN a x) (hb : cLeN b y) :
    cLeN (cAdd a b) (x + y) := by
  cases a <;> cases b <;> simp_all [cLeN, cLe, cAdd] <;> omega

/-! ### Walk lemmas -/

theorem KWalk.toPWalk {g : UUGraph} {K : List Nat} {u v n : Nat}
    (h : KWalk g K u v n) : PWalk g u v n := by
  induction h with
  | nil u => exact PWalk.nil u
  | last hadj => exact PWalk.cons hadj (PWalk.nil _)
  | step hadj _ _ ih => exact PWalk.cons hadj ih

theorem PWalk.nodes_lt {g : UUGraph} (hwf : g.WF) {u v n : Nat}
    (h : PWalk g u v n) (hn : 1 ≤ n) : u < g.num_nodes ∧ v < g.num_nodes := by
  induction h with
  | nil u => omega
  | @cons u' v' w' n' hadj htail ih =>
    rcases hwf _ _ hadj with ⟨hu, hv⟩
    refine ⟨hu, ?_⟩
    rcases Nat.eq_zero_or_pos n' with h0 | hpos
    · subst h0; cases htail; exact hv
    · exact (ih hpos).2

theorem PWalk.toKWalk {g : UUGraph} (hwf : g.WF) {u v n : Nat}
    (h : PWalk g u v n) : KWalk g (List.range g.num_nodes) u v n := by
  induction h with
  | nil u => exact KWalk.nil u
  | @cons u' v' w' n' hadj htail ih =>
    match n', htail, ih with
    | 0, htail, _ => cases htail; exact KWalk.last hadj
    | n'' + 1, htail, ih =>
      have hv : v' < g.num_nodes := ((htail.nodes_lt hwf) (by omega)).1
      exact KWalk.step hadj (List.mem_range.2 hv) ih

theorem KWalk.mono {g : UUGraph} {K K' : List Nat} (hsub : ∀ x, x ∈ K → x ∈ K')
    {u v n : Nat} (h : KWalk g K u v n) : KWalk g K' u v n := by
  induction h with
  | nil u => exact KWalk.nil u
  | last hadj => exact KWalk.last hadj
  | step hadj hmem _ ih => exact KWalk.step hadj (hsub _ hmem) ih

theorem KWalk.pos_of_ne {g : UUGraph} {K : List Nat} {u v n : Nat}
    (h : KWalk g K u v n) (hne : u ≠ v) : 1 ≤ n := by
  cases h with
  | nil => exact absurd rfl hne
  | last _ => omega
  | step _ _ _ => omega

/-- Concatenation through `k ∈ K`: the junction node becomes interior. -/
theorem KWalk.append {g : UUGraph} {K : List Nat} {u k v a b : Nat}
    (h1 : KWalk g K u k a) (hk : k ∈ K) (hb : 1 ≤ b) (h2 : KWalk g K k v b) :
    KWalk g K u v (a + b) := by
  induction h1 with
  | nil u => simpa using h2
  | @last u' v' hadj =>
    match b, hb, h2 with
    | b' + 1, _, h2 =>
      have hres : KWalk g K u' v (b' + 2) := KWalk.step hadj hk h2
      have he : 1 + (b' + 1) = b' + 2 := by omega
      rw [he]; exact hres
  | @step u' v' w' n' hadj hmem htail ih =>
    have hres := KWalk.step hadj hmem (show KWalk g K v' v (n' + b + 1) by
      have hx : n' + 1 + b = n' + b + 1 := by omega
      rw [← hx]; exact ih hk h2)
    have he : n' + 2 + b = n' + b + 1 + 1 := by omega
    rw [he]; exact hres

/-- Rebuild a `KWalk` from the first-hop decomposition used in `FWSound`. -/
theorem KWalk.ofFH {g : UUGraph} {K : List Nat} {i j c m : Nat}
    (hadj : g.adj i m = true)
    (h : (c = 1 ∧ m = j) ∨ (∃ c', c = c' + 2 ∧ m ∈ K ∧ KWalk g K m j (c' + 1))) :
    KWalk g K i j c := by
  rcases h with ⟨rfl, rfl⟩ | ⟨c', rfl, hmem, hw⟩
  · exact KWalk.last hadj
  · exact KWalk.step hadj hmem hw

/-- A walk decomposes at the first interior occurrence of `k`: either the
interior avoids `k` entirely, or the walk splits into two `K`-interior
walks through `k`. -/
theorem KWalk.split {g : UUGraph} {K : List Nat} {k : Nat} {u v n : Nat}
    (h : KWalk g (K ++ [k]) u v n) :
    KWalk g K u v n ∨ ∃ a b, KWalk g K u k a ∧ KWalk g K k v b ∧ a + b ≤ n := by
  induction h with
  | nil u => exact Or.inl (KWalk.nil u)
  | last hadj => exact Or.inl (KWalk.last hadj)
  | @step u' v' w' n' hadj hmem htail ih =>
    rcases List.mem_append.1 hmem with hK | hkk
    · rcases ih with hw | ⟨a, b, h1, h2, hab⟩
      · exact Or.inl (KWalk.step hadj hK hw)
      · refine Or.inr ⟨a + 1, b, ?_, h2, by omega⟩
        match a, h1 with
        | 0, h1 => cases h1; exact KWalk.last hadj
        | a' + 1, h1 => exact KWalk.step hadj hK h1
    · have hvk : v' = k := by simpa using hkk
      subst hvk
      rcases ih with hw | ⟨a, b, h1, h2, hab⟩
      · exact Or.inr ⟨1, n' + 1, KWalk.last hadj, hw, by omega⟩
      · exact Or.inr ⟨1, b, KWalk.last hadj, h2, by omega⟩

/-! ### Floyd–Warshall single-update lemmas -/

theorem matUpd_same {α : Type} (M : Nat → Nat → α) (i j : Nat) (v : α) :
    matUpd M i j v i j = v := by simp [matUpd]

theorem matUpd_other {α : Type} (M : Nat → Nat → α) {i j x y : Nat} (v : α)
    (h : ¬(x = i ∧ y = j)) : matUpd M i j v x y = M x y := by simp [matUpd, h]

theorem cLt_none_left (b : Cost) : cLt none b = false := by cases b <;> rfl

theorem cLt_some_zero (a : Cost) : cLt a (some 0) = false := by
  cases a <;> simp [cLt]

/-- The update at `(i, i)` never fires (the diagonal is zero). -/
theorem fwUpd_fire_ne {dn : DMat × NMat} {k i j : Nat} (hd : FWDiag dn.1)
    (hfire : cLt (cAdd (dn.1 i k) (dn.1 k j)) (dn.1 i j) = true) :
    i ≠ j ∧ i ≠ k ∧ k ≠ j := by
  refine ⟨?_, ?_, ?_⟩
  · rintro rfl
    rw [hd i, cLt_some_zero] at hfire
    exact Bool.noConfusion hfire
  · rintro rfl
    rw [hd i, cAdd_zero_left, cLt_irrefl] at hfire
    exact Bool.noConfusion hfire
  · rintro rfl
    rw [hd k, cAdd_zero_right, cLt_irrefl] at hfire
    exact Bool.noConfusion hfire

/-- Updates at `(i, k)` and `(k, j)` never fire: the pivot row and column
are stable during iteration `k`. -/
theorem fwUpd_pivot_row (dn : DMat × NMat) (k i : Nat) (hd : FWDiag dn.1) :
    fwUpd dn k i k = dn := by
  unfold fwUpd
  rw [hd k, cAdd_zero_right, cLt_irrefl]
  rfl

theorem fwUpd_pivot_col (dn : DMat × NMat) (k j : Nat) (hd : FWDiag dn.1) :
    fwUpd dn k k j = dn := by
  unfold fwUpd
  rw [hd k, cAdd_zero_left, cLt_irrefl]
  rfl

/-- A single update leaves every entry other than `(i, j)` unchanged. -/
theorem fwUpd_frame {dn : DMat × NMat} {k i j x y : Nat} (h : ¬(x = i ∧ y = j)) :
    (fwUpd dn k i j).1 x y = dn.1 x y ∧ (fwUpd dn k i j).2 x y = dn.2 x y := by
  unfold fwUpd
  by_cases hc : cLt (cAdd (dn.1 i k) (dn.1 k j)) (dn.1 i j) = true
  · simp only [hc, if_true]
    exact ⟨matUpd_other _ _ h, matUpd_other _ _ h⟩
  · simp only [Bool.not_eq_true] at hc
    simp [hc]

/-- A single update only decreases entries. -/
theorem fwUpd_decr (dn : DMat × NMat) (k i j x y : Nat) :
    cLe ((fwUpd dn k i j).1 x y) (dn.1 x y) := by
  unfold fwUpd
  by_cases hc : cLt (cAdd (dn.1 i k) (dn.1 k j)) (dn.1 i j) = true
  · simp only [hc, if_true]
    by_cases hxy : x = i ∧ y = j
    · rcases hxy with ⟨rfl, rfl⟩
      rw [matUpd_same]
      exact cLt_imp_cLe hc
    · rw [matUpd_other _ _ hxy]
      exact cLe_refl _
  · simp only [Bool.not_eq_true] at hc
    simp only [hc]
    exact cLe_refl _

/-- After the update, the `(i, j)` entry is at most `d i k + d k j`. -/
theorem fwUpd_bound (dn : DMat × NMat) (k i j : Nat) :
    cLe ((fwUpd dn k i j).1 i j) (cAdd (dn.1 i k) (dn.1 k j)) := by
  unfold fwUpd
  by_cases hc : cLt (cAdd (dn.1 i k) (dn.1 k j)) (dn.1 i j) = true
  · simp only [hc, if_true, matUpd_same]
    exact cLe_refl _
  · simp only [Bool.not_eq_true] at hc
    simp only [hc]
    exact cLe_of_not_cLt hc

theorem fwUpd_diag {dn : DMat × NMat} (k i j : Nat) (hd : FWDiag dn.1) :
    FWDiag (fwUpd dn k i j).1 := by
  intro x
  by_cases hxy : x = i ∧ x = j
  · rcases hxy with ⟨rfl, h2⟩
    subst h2
    unfold fwUpd
    by_cases hc : cLt (cAdd (dn.1 x k) (dn.1 k x)) (dn.1 x x) = true
    · exact absurd (fwUpd_fire_ne hd hc).1 (by simp)
    · simp only [Bool.not_eq_true] at hc
      simp only [hc]
      exact hd x
  · rw [(fwUpd_frame hxy).1]
    exact hd x

/-- The update preserves soundness with respect to the extended interior
set `K'` (which must contain the pivot `k`). -/
theorem fwUpd_sound {g : UUGraph} {K' : List Nat} {dn : DMat × NMat} {k i j : Nat}
    (hd : FWDiag dn.1) (hk : k ∈ K') (hs : FWSound g K' dn.1 dn.2) :
    FWSound g K' (fwUpd dn k i j).1 (fwUpd dn k i j).2 := by
  intro x y c hne hval
  by_cases hc : cLt (cAdd (dn.1 i k) (dn.1 k j)) (dn.1 i j) = true
  · by_cases hxy : x = i ∧ y = j
    · rcases hxy with ⟨rfl, rfl⟩
      rcases fwUpd_fire_ne hd hc with ⟨hij, hik, hkj⟩
      have hval' : cAdd (dn.1 x k) (dn.1 k y) = some c := by
        have : (fwUpd dn k x y).1 x y = cAdd (dn.1 x k) (dn.1 k y) := by
          unfold fwUpd
          simp only [hc, if_true, matUpd_same]
        rw [← this]; exact hval
      rcases cAdd_fin hval' with ⟨a, b, hik', hkj', rfl⟩
      have hnxt : (fwUpd dn k x y).2 x y = dn.2 x k := by
        unfold fwUpd
        simp only [hc, if_true, matUpd_same]
      rcases hs x k a hik hik' with ⟨m, hm, hadj, hdec⟩
      rcases hs k y b hkj hkj' with ⟨m2, _, hadj2, hdec2⟩
      have hb1 : 1 ≤ b := by rcases hdec2 with ⟨h1, _⟩ | ⟨c', h1, _⟩ <;> omega
      have wkj : KWalk g K' k y b := KWalk.ofFH hadj2 hdec2
      refine ⟨m, by rw [hnxt]; exact hm, hadj, ?_⟩
      rcases hdec with ⟨ha1, hmk⟩ | ⟨c', hc', hmK, wmk⟩
      · subst hmk; subst ha1
        match b, hb1, wkj with
        | b' + 1, _, wkj =>
          exact Or.inr ⟨b', by omega, hk, wkj⟩
      · subst hc'
        have wmj : KWalk g K' m y (c' + 1 + b) := KWalk.append wmk hk hb1 wkj
        refine Or.inr ⟨c' + b, by omega, hmK, ?_⟩
        have he : c' + 1 + b = c' + b + 1 := by omega
        rw [← he]; exact wmj
    · rcases fwUpd_frame hxy with ⟨h1, h2⟩
      rw [h1] at hval
      rw [h2]
      exact hs x y c hne hval
  · have heq : fwUpd dn k i j = dn := by
      unfold fwUpd
      simp only [Bool.not_eq_true] at hc
      simp [hc]
    rw [heq] at hval ⊢
    exact hs x y c hne hval

/-- Completeness is preserved by any pointwise decrease. -/
theorem complete_decr {g : UUGraph} {K : List Nat} {d d' : DMat}
    (hle : ∀ x y, cLe (d' x y) (d x y)) (hc : FWComplete g K d) :
    FWComplete g K d' := by
  intro i j n hw
  exact cLe_trans (hle i j) (hc i j n hw)

theorem sound_mono {g : UUGraph} {K K' : List Nat} {d : DMat} {nxt : NMat}
    (hsub : ∀ x, x ∈ K → x ∈ K') (hs : FWSound g K d nxt) :
    FWSound g K' d nxt := by
  intro i j c hne hval
  rcases hs i j c hne hval with ⟨m, hm, hadj, hdec⟩
  refine ⟨m, hm, hadj, ?_⟩
  rcases hdec with h | ⟨c', h1, h2, h3⟩
  · exact Or.inl h
  · exact Or.inr ⟨c', h1, hsub _ h2, h3.mono hsub⟩

theorem fwUpd_colk {dn : DMat × NMat} (k i j : Nat) (hd : FWDiag dn.1) (x : Nat) :
    (fwUpd dn k i j).1 x k = dn.1 x k := by
  by_cases hjk : j = k
  · subst hjk
    rw [fwUpd_pivot_row _ _ _ hd]
  · exact (fwUpd_frame (by tauto)).1

theorem fwUpd_rowk {dn : DMat × NMat} (k i j : Nat) (hd : FWDiag dn.1) (y : Nat) :
    (fwUpd dn k i j).1 k y = dn.1 k y := by
  by_cases hik : i = k
  · subst hik
    rw [fwUpd_pivot_col _ _ _ hd]
  · exact (fwUpd_frame (by tauto)).1

theorem cLeN_le {x : Cost} {m n : Nat} (h : cLeN x m) (hmn : m ≤ n) : cLeN x n := by
  cases x <;> simp_all [cLeN, cLe] <;> omega

/-- Combined facts about the inner `for j` loop of iteration `k`. -/
theorem fwLoopJ_spec (g : UUGraph) (K' : List Nat) (k i : Nat) (hk : k ∈ K')
    (js : List Nat) (dn : DMat × NMat)
    (hd : FWDiag dn.1) (hs : FWSound g K' dn.1 dn.2) :
    FWDiag (js.foldl (fun dn j => fwUpd dn k i j) dn).1
    ∧ FWSound g K' (js.foldl (fun dn j => fwUpd dn k i j) dn).1
        (js.foldl (fun dn j => fwUpd dn k i j) dn).2
    ∧ (∀ x y, x ≠ i → (js.foldl (fun dn j => fwUpd dn k i j) dn).1 x y = dn.1 x y
        ∧ (js.foldl (fun dn j => fwUpd dn k i j) dn).2 x y = dn.2 x y)
    ∧ (∀ x, (js.foldl (fun dn j => fwUpd dn k i j) dn).1 x k = dn.1 x k)
    ∧ (∀ y, (js.foldl (fun dn j => fwUpd dn k i j) dn).1 k y = dn.1 k y)
    ∧ (∀ x y, cLe ((js.foldl (fun dn j => fwUpd dn k i j) dn).1 x y) (dn.1 x y))
    ∧ (∀ j ∈ js, cLe ((js.foldl (fun dn j => fwUpd dn k i j) dn).1 i j)
        (cAdd (dn.1 i k) (dn.1 k j))) := by
  induction js generalizing dn with
  | nil =>
    refine ⟨hd, hs, fun x y _ => ⟨rfl, rfl⟩, fun x => rfl, fun y => rfl,
      fun x y => cLe_refl _, fun j hj => absurd hj (List.not_mem_nil j)⟩
  | cons j rest ih =>
    simp only [List.foldl_cons]
    have hd1 : FWDiag (fwUpd dn k i j).1 := fwUpd_diag k i j hd
    have hs1 : FWSound g K' (fwUpd dn k i j).1 (fwUpd dn k i j).2 :=
      fwUpd_sound hd hk hs
    obtain ⟨rd, rs, rstab, rcolk, rrowk, rdecr, rbound⟩ := ih (fwUpd dn k i j) hd1 hs1
    refine ⟨rd, rs, ?_, ?_, ?_, ?_, ?_⟩
    · intro x y hx
      rcases rstab x y hx with ⟨h1, h2⟩
      rcases @fwUpd_frame dn k i j x y (by tauto) with ⟨h3, h4⟩
      exact ⟨h1.trans h3, h2.trans h4⟩
    · intro x
      rw [rcolk x, fwUpd_colk k i j hd x]
    · intro y
      rw [rrowk y, fwUpd_rowk k i j hd y]
    · intro x y
      exact cLe_trans (rdecr x y) (fwUpd_decr dn k i j x y)
    · intro j' hj'
      rcases List.mem_cons.1 hj' with rfl | hj'
      · exact cLe_trans (rdecr i j') (fwUpd_bound dn k i j')
      · have hb := rbound j' hj'
        rwa [fwUpd_colk k i j hd i, fwUpd_rowk k i j hd j'] at hb

/-- Combined facts about the `for i` loop of iteration `k`. -/
theorem fwLoopI_spec (g : UUGraph) (K' : List Nat) (k : Nat) (hk : k ∈ K')
    (n : Nat) (is : List Nat) (dn : DMat × NMat)
    (hd : FWDiag dn.1) (hs : FWSound g K' dn.1 dn.2) :
    FWDiag (is.foldl (fun dn i => fwLoopJ n k i dn) dn).1
    ∧ FWSound g K' (is.foldl (fun dn i => fwLoopJ n k i dn) dn).1
        (is.foldl (fun dn i => fwLoopJ n k i dn) dn).2
    ∧ (∀ x y, x ∉ is → (is.foldl (fun dn i => fwLoopJ n k i dn) dn).1 x y = dn.1 x y)
    ∧ (∀ x, (is.foldl (fun dn i => fwLoopJ n k i dn) dn).1 x k = dn.1 x k)
    ∧ (∀ y, (is.foldl (fun dn i => fwLoopJ n k i dn) dn).1 k y = dn.1 k y)
    ∧ (∀ x y, cLe ((is.foldl (fun dn i => fwLoopJ n k i dn) dn).1 x y) (dn.1 x y))
    ∧ (∀ i ∈ is, ∀ j ∈ List.range n,
        cLe ((is.foldl (fun dn i => fwLoopJ n k i dn) dn).1 i j)
          (cAdd (dn.1 i k) (dn.1 k j))) := by
  induction is generalizing dn with
  | nil =>
    refine ⟨hd, hs, fun x y _ => rfl, fun x => rfl, fun y => rfl,
      fun x y => cLe_refl _, fun i hi => absurd hi (List.not_mem_nil i)⟩
  | cons i rest ih =>
    simp only [List.foldl_cons]
    obtain ⟨jd, js', jstab, jcolk, jrowk, jdecr, jbound⟩ :=
      fwLoopJ_spec g K' k i hk (List.range n) dn hd hs
    have hJ : (List.range n).foldl (fun dn j => fwUpd dn k i j) dn = fwLoopJ n k i dn := rfl
    rw [hJ] at jd js' jstab jcolk jrowk jdecr jbound
    obtain ⟨rd, rs, rstab, rcolk, rrowk, rdecr, rbound⟩ := ih (fwLoopJ n k i dn) jd js'
    refine ⟨rd, rs, ?_, ?_, ?_, ?_, ?_⟩
    · intro x y hx
      have hxne : x ≠ i := fun h => hx (h ▸ List.mem_cons_self i rest)
      have hxrest : x ∉ rest := fun h => hx (List.mem_cons_of_mem i h)
      rw [rstab x y hxrest, (jstab x y hxne).1]
    · intro x
      rw [rcolk x, jcolk x]
    · intro y
      rw [rrowk y, jrowk y]
    · intro x y
      exact cLe_trans (rdecr x y) (jdecr x y)
    · intro i' hi' j hj
      rcases List.mem_cons.1 hi' with rfl | hi'
      · by_cases hmem : i' ∈ rest
        · have hb := rbound i' hmem j hj
          rwa [jcolk i', jrowk j] at hb
        · rw [rstab i' j hmem]
          exact jbound j hj
      · have hb := rbound i' hi' j hj
        rwa [jcolk i', jrowk j] at hb

/-- One full iteration of the outer `for k` loop extends the invariant's
interior set by the pivot `k`. -/
theorem fwLoopI_inv (g : UUGraph) (hwf : g.WF) (K : List Nat) (k : Nat)
    (dn : DMat × NMat) (hinv : FWInv g K dn) :
    FWInv g (K ++ [k]) (fwLoopI g.num_nodes k dn) := by
  obtain ⟨hd, hs, hc⟩ := hinv
  have hk : k ∈ K ++ [k] := List.mem_append.2 (Or.inr (List.mem_singleton.2 rfl))
  have hs' : FWSound g (K ++ [k]) dn.1 dn.2 :=
    sound_mono (fun x hx => List.mem_append.2 (Or.inl hx)) hs
  obtain ⟨rd, rs, rstab, rcolk, rrowk, rdecr, rbound⟩ :=
    fwLoopI_spec g (K ++ [k]) k hk g.num_nodes (List.range g.num_nodes) dn hd hs'
  have hI : (List.range g.num_nodes).foldl
      (fun dn i => fwLoopJ g.num_nodes k i dn) dn = fwLoopI g.num_nodes k dn := rfl
  rw [hI] at rd rs rstab rcolk rrowk rdecr rbound
  have hcr : FWComplete g K (fwLoopI g.num_nodes k dn).1 :=
    complete_decr rdecr hc
  refine ⟨rd, rs, ?_⟩
  intro i j n' hw
  rcases hw.split with hw0 | ⟨a, b, w1, w2, hab⟩
  · exact hcr i j n' hw0
  · rcases Nat.eq_zero_or_pos a with ha0 | ha1
    · subst ha0
      cases w1
      exact cLeN_le (hcr _ _ _ w2) (by omega)
    · rcases Nat.eq_zero_or_pos b with hb0 | hb1
      · subst hb0
        cases w2
        exact cLeN_le (hcr _ _ _ w1) (by omega)
      · have hi : i < g.num_nodes := (w1.toPWalk.nodes_lt hwf ha1).1
        have hj : j < g.num_nodes := (w2.toPWalk.nodes_lt hwf hb1).2
        have h1 : cLeN (dn.1 i k) a := hc _ _ _ w1
        have h2 : cLeN (dn.1 k j) b := hc _ _ _ w2
        have hbd := rbound i (List.mem_range.2 hi) j (List.mem_range.2 hj)
        exact cLeN_le (cLe_trans hbd (cLe_cAdd h1 h2)) hab

/-- The outer `for k` fold preserves and extends the invariant. -/
theorem fwFold_inv (g : UUGraph) (hwf : g.WF) :
    ∀ (ks : List Nat) (K : List Nat) (dn : DMat × NMat), FWInv g K dn →
      FWInv g (K ++ ks) (ks.foldl (fun dn k => fwLoopI g.num_nodes k dn) dn) := by
  intro ks
  induction ks with
  | nil => intro K dn h; simpa using h
  | cons k rest ih =>
    intro K dn h
    have h1 := fwLoopI_inv g hwf K k dn h
    have h2 := ih (K ++ [k]) (fwLoopI g.num_nodes k dn) h1
    simpa [List.append_assoc] using h2

/-- The initial matrices satisfy the invariant with empty interior set. -/
theorem fwInit_inv (g : UUGraph) : FWInv g [] (fwInitD g, fwInitN g) := by
  refine ⟨fun i => by simp [fwInitD], ?_, ?_⟩
  · intro i j c hne hval
    simp only [fwInitD, if_neg hne] at hval
    by_cases hadj : g.adj i j = true
    · rw [if_pos hadj] at hval
      refine ⟨j, ?_, hadj, Or.inl ⟨(Option.some.inj hval).symm, rfl⟩⟩
      simp [fwInitN, if_neg hne, hadj]
    · rw [if_neg hadj] at hval
      exact Option.noConfusion hval
  · intro i j n hw
    cases hw with
    | nil => simp [cLeN, cLe, fwInitD]
    | last hadj =>
      by_cases hne : i = j
      · subst hne; simp [cLeN, cLe, fwInitD]
      · simp [cLeN, cLe, fwInitD, hne, hadj]
    | step _ hmem _ => exact absurd hmem (List.not_mem_nil _)

/-- Full Floyd–Warshall invariant: after `floyd_warshall` the matrices are
sound and complete with every node allowed as interior. -/
theorem floydWarshall_inv (g : UUGraph) (hwf : g.WF) :
    FWInv g (List.range g.num_nodes) (floydWarshall g) := by
  have h := fwFold_inv g hwf (List.range g.num_nodes) [] (fwInitD g, fwInitN g)
    (fwInit_inv g)
  simpa [floydWarshall] using h

/-- Every finite distance entry is witnessed by an actual walk. -/
theorem fw_walk_of_fin (g : UUGraph) (hwf : g.WF) {u v : Nat} {c : Nat}
    (h : (floydWarshall g).1 u v = some c) : PWalk g u v c := by
  obtain ⟨hd, hs, _⟩ := floydWarshall_inv g hwf
  by_cases hne : u = v
  · subst hne
    rw [hd u] at h
    have hc0 : c = 0 := (Option.some.inj h).symm
    subst hc0
    exact PWalk.nil u
  · rcases hs u v c hne h with ⟨m, _, hadj, hdec⟩
    exact (KWalk.ofFH hadj hdec).toPWalk

/-- Every walk bounds the distance entry from above. -/
theorem fw_le_walk (g : UUGraph) (hwf : g.WF) {u v n : Nat} (h : PWalk g u v n) :
    cLeN ((floydWarshall g).1 u v) n := by
  obtain ⟨_, _, hc⟩ := floydWarshall_inv g hwf
  exact hc u v n (h.toKWalk hwf)

/-- The computed distance is exactly the graph distance. -/
theorem fw_dist_eq (g : UUGraph) (hwf : g.WF) {u v k : Nat}
    (h : IsGraphDist g u v k) : (floydWarshall g).1 u v = some k := by
  obtain ⟨hw, hmin⟩ := h
  have hle := fw_le_walk g hwf hw
  rcases hfin : (floydWarshall g).1 u v with _ | c
  · rw [hfin] at hle
    exact absurd hle (by simp [cLeN, cLe])
  · rw [hfin] at hle
    have hc : c ≤ k := by simpa [cLeN, cLe] using hle
    have hk : k ≤ c := hmin c (fw_walk_of_fin g hwf hfin)
    have hck : c = k := by omega
    rw [hck]

/-- Exact unit decrement along the next-hop table: the key step for the
reconstruction length. -/
theorem fw_step_dec (g : UUGraph) (hwf : g.WF) {i j c : Nat} (hne : i ≠ j)
    (h : (floydWarshall g).1 i j = some (c + 1)) :
    ∃ m : Nat, (floydWarshall g).2 i j = (m : Int) ∧
      (floydWarshall g).1 m j = some c := by
  obtain ⟨hd, hs, hc⟩ := floydWarshall_inv g hwf
  rcases hs i j (c + 1) hne h with ⟨m, hm, hadj, hdec⟩
  rcases hdec with ⟨h1, hmj⟩ | ⟨c', hcc, hmK, w⟩
  · have hc0 : c = 0 := by omega
    subst hc0
    refine ⟨m, hm, ?_⟩
    rw [hmj]
    exact hd j
  · have hcc' : c = c' + 1 := by omega
    subst hcc'
    have hmj : m ≠ j := by
      intro hmj2
      have hone : KWalk g (List.range g.num_nodes) i j 1 := by
        rw [← hmj2]
        exact KWalk.last hadj
      have hcle := hc i j 1 hone
      rw [h] at hcle
      simp [cLeN, cLe] at hcle
    have hub : cLeN ((floydWarshall g).1 m j) (c' + 1) := hc m j (c' + 1) w
    rcases hfin : (floydWarshall g).1 m j with _ | e
    · rw [hfin] at hub
      exact absurd hub (by simp [cLeN, cLe])
    · rw [hfin] at hub
      have he : e ≤ c' + 1 := by simpa [cLeN, cLe] using hub
      rcases hs m j e hmj hfin with ⟨m2, _, hadj2, hdec2⟩
      have he1 : 1 ≤ e := by rcases hdec2 with ⟨h1, _⟩ | ⟨x, h1, _⟩ <;> omega
      have wmj : KWalk g (List.range g.num_nodes) m j e := KWalk.ofFH hadj2 hdec2
      have wij : KWalk g (List.range g.num_nodes) i j (e + 1) := by
        match e, he1, wmj with
        | e' + 1, _, wmj =>
          exact KWalk.step hadj hmK wmj
      have := hc i j (e + 1) wij
      rw [h] at this
      have : c' + 2 ≤ e + 1 := by simpa [cLeN, cLe] using this
      have : e = c' + 1 := by omega
      subst this
      exact ⟨m, hm, hfin⟩

/-- The reconstruction loop of `get_shortest_path` performs exactly `c`
iterations when the source–target distance is `c`. -/
theorem pathWalk_len (g : UUGraph) (hwf : g.WF) (v : Nat) :
    ∀ (c : Nat) (i : Nat) (acc : List Nat), (floydWarshall g).1 i v = some c →
      (pathWalk (floydWarshall g).2 v c i acc).length = acc.length + c := by
  obtain ⟨hd, hs, hc⟩ := floydWarshall_inv g hwf
  intro c
  induction c with
  | zero =>
    intro i acc hval
    have hiv : i = v := by
      by_contra hne
      rcases hs i v 0 hne hval with ⟨m, _, _, hdec⟩
      rcases hdec with ⟨h1, _⟩ | ⟨x, h1, _⟩ <;> omega
    subst hiv
    simp [pathWalk]
  | succ c ih =>
    intro i acc hval
    have hne : i ≠ v := by
      rintro rfl
      rw [hd i] at hval
      exact absurd (Option.some.inj hval) (by omega)
    rcases fw_step_dec g hwf hne hval with ⟨m, hm, hmv⟩
    have hlen := ih m (acc ++ [m]) hmv
    simp only [pathWalk, if_neg hne, hm]
    rw [if_neg (by omega : ¬((m : Int) = -1))]
    simp only [Int.toNat_ofNat]
    rw [hlen]
    simp
    omega

/-- `get_shortest_path` returns a node list of length `k + 1` when the two
nodes are at graph distance `k`. -/
theorem getShortestPath_len (g : UUGraph) (hwf : g.WF) {u v k : Nat}
    (h : IsGraphDist g u v k) :
    (getShortestPath (floydWarshall g) u v).length = k + 1 := by
  have hdist := fw_dist_eq g hwf h
  have hlen := pathWalk_len g hwf v k u [u] hdist
  simp only [getShortestPath, hdist]
  rw [hlen]
  simp [Nat.add_comm]

/-! ### Swap-count lemmas for the router -/

/-- `__move_through_path` performs one swap per path node. -/
theorem moveThroughPath_count (qubit : Nat) :
    ∀ (path : List Nat) (st : MapState) (qubit_node : Nat),
      (moveThroughPath st qubit qubit_node path).2.2 = path.length := by
  intro path
  induction path with
  | nil => intro st qn; rfl
  | cons node rest ih =>
    intro st qn
    simp only [moveThroughPath, List.length_cons]
    rw [ih]

/-- All three strategy branches distribute `path.length - 2` swaps over the
two endpoints. -/
theorem pathsForStrategy_count (strategy : Int) (c t : Nat) (path : List Nat)
    (hlen : 2 ≤ path.length) :
    (pathsForStrategy strategy c t path).1.length
      + (pathsForStrategy strategy c t path).2.length = path.length - 2 := by
  unfold pathsForStrategy
  by_cases h1 : strategy = (t : Int)
  · simp only [h1, if_true]
    simp only [List.length_reverse, List.length_dropLast, List.length_drop,
      List.length_nil]
    omega
  · rw [if_neg h1]
    by_cases h2 : strategy = (c : Int)
    · simp only [h2, if_true]
      simp only [List.length_dropLast, List.length_drop, List.length_nil]
      omega
    · rw [if_neg h2]
      unfold splitPaths
      simp only [List.length_drop, List.length_take, List.length_dropLast]
      by_cases hpar : path.length % 2 = 0
      · simp only [hpar, if_true]
        omega
      · rw [if_neg hpar]
        omega

/-- Graph distance at least 2 between distinct non-adjacent nodes. -/
theorem graphDist_ge_two {g : UUGraph} {u v k : Nat} (h : IsGraphDist g u v k)
    (hne : u ≠ v) (hadj : g.are_adjacent u v = false) : 2 ≤ k := by
  rcases h with ⟨hw, _⟩
  match k, hw with
  | 0, hw => cases hw; exact absurd rfl hne
  | 1, hw =>
    cases hw with
    | cons hadj' htail =>
      cases htail
      rw [UUGraph.are_adjacent] at hadj
      rw [hadj'] at hadj
      exact Bool.noConfusion hadj
  | k + 2, _ => omega

/-- Well-formedness of graphs built from an in-range edge list. -/
theorem add_edge_num_nodes (g : UUGraph) (u v : Nat) :
    (g.add_edge u v).num_nodes = g.num_nodes := rfl

theorem fromEdges_num_nodes (n : Nat) (edges : List (Nat × Nat)) :
    (UUGraph.fromEdges n edges).num_nodes = n := by
  unfold UUGraph.fromEdges
  induction edges generalizing n with
  | nil => rfl
  | cons e rest ih =>
    simp only [List.foldl_cons]
    have : ∀ (g : UUGraph) (es : List (Nat × Nat)),
        (es.foldl (fun g e => g.add_edge e.1 e.2) g).num_nodes = g.num_nodes := by
      intro g es
      induction es generalizing g with
      | nil => rfl
      | cons e' rest' ih' => simp only [List.foldl_cons]; rw [ih']; rfl
    rw [this]
    rfl

theorem fromEdges_WF (n : Nat) (edges : List (Nat × Nat))
    (hdom : ∀ e ∈ edges, e.1 < n ∧ e.2 < n) : (UUGraph.fromEdges n edges).WF := by
  have key : ∀ (es : List (Nat × Nat)) (g : UUGraph), g.num_nodes = n → g.WF →
      (∀ e ∈ es, e.1 < n ∧ e.2 < n) →
      (es.foldl (fun g e => g.add_edge e.1 e.2) g).WF := by
    intro es
    induction es with
    | nil => intro g _ hg _; exact hg
    | cons e rest ih =>
      intro g hn hg hd
      simp only [List.foldl_cons]
      refine ih (g.add_edge e.1 e.2) hn ?_ (fun x hx => hd x (List.mem_cons_of_mem e hx))
      intro i j hadj
      rcases hd e (List.mem_cons_self e rest) with ⟨h1, h2⟩
      simp only [UUGraph.add_edge] at hadj ⊢
      by_cases hc : (i = e.1 ∧ j = e.2) ∨ (i = e.2 ∧ j = e.1)
      · rcases hc with ⟨rfl, rfl⟩ | ⟨rfl, rfl⟩ <;> rw [hn] <;> constructor <;> omega
      · rw [if_neg hc] at hadj
        exact hg i j hadj
  exact key edges (UUGraph.empty n) rfl (fun i j h => Bool.noConfusion h) hdom

/-- C5 (claim theorem).  When the control and target qubits of a triple sit
on distinct, non-adjacent physical nodes at graph distance `k`, `__apply_cnot`
emits exactly `k - 1` SWAPs, whichever lookahead branch (move control, move
target, or split evenly — including every random draw) is taken. -/
theorem router_swap_count_is_dist_minus_one
    (topology : UUGraph) (hwf : topology.WF) (l2p p2l : List Nat)
    (cnots : List Cnot) (lookahead : Nat) (oracle : RChoice) (c t i k : Nat)
    (hdist : IsGraphDist topology (l2p.getD c 0) (l2p.getD t 0) k)
    (hne : l2p.getD c 0 ≠ l2p.getD t 0)
    (hadj : topology.are_adjacent (l2p.getD c 0) (l2p.getD t 0) = false) :
    (applyCnot (Router.init topology l2p p2l cnots lookahead).graph
        (Router.init topology l2p p2l cnots lookahead).dn
        cnots lookahead oracle (l2p, p2l) c t i).2.2 = k - 1 := by
  have hk2 : 2 ≤ k := graphDist_ge_two hdist hne hadj
  have hgr : (Router.init topology l2p p2l cnots lookahead).graph = topology := rfl
  have hdn : (Router.init topology l2p p2l cnots lookahead).dn = floydWarshall topology := rfl
  rw [hgr, hdn]
  have hplen : (getShortestPath (floydWarshall topology) (l2p.getD c 0)
      (l2p.getD t 0)).length = k + 1 := getShortestPath_len topology hwf hdist
  unfold applyCnot
  simp only [hadj, Bool.false_eq_true, if_false]
  rw [moveThroughPath_count, moveThroughPath_count]
  rw [pathsForStrategy_count _ _ _ _ (by omega : 2 ≤ (getShortestPath
    (floydWarshall topology) (l2p.getD c 0) (l2p.getD t 0)).length)]
  omega

/-- Witness for C5: on the 6-node line with identity placement, the gate
`CNOT(0,5)` sits at distance 5 and the router emits exactly 4 swaps. -/
theorem router_swap_count_is_dist_minus_one_witness :
    ((List.range 6).getD 0 0 ≠ (List.range 6).getD 5 0)
      ∧ line6.are_adjacent ((List.range 6).getD 0 0) ((List.range 6).getD 5 0) = false
      ∧ (applyCnot (Router.init line6 (List.range 6) (List.range 6)
            [(0, 5, 0), (0, 5, 1)] 10).graph
          (Router.init line6 (List.range 6) (List.range 6) [(0, 5, 0), (0, 5, 1)] 10).dn
          [(0, 5, 0), (0, 5, 1)] 10 RChoice.both (List.range 6, List.range 6) 0 5 0).2.2
        = 5 - 1 := by
  have hwf : line6.WF := fromEdges_WF 6 _ (by decide)
  have hdist : IsGraphDist line6 ((List.range 6).getD 0 0) ((List.range 6).getD 5 0) 5 := by
    constructor
    · show PWalk line6 0 5 5
      exact @PWalk.cons line6 0 1 5 4 (by decide) (@PWalk.cons line6 1 2 5 3 (by decide)
        (@PWalk.cons line6 2 3 5 2 (by decide) (@PWalk.cons line6 3 4 5 1 (by decide)
          (@PWalk.cons line6 4 5 5 0 (by decide) (PWalk.nil 5)))))
    · intro m hw
      have hle := fw_le_walk line6 hwf hw
      have hfv : (floydWarshall line6).1 ((List.range 6).getD 0 0)
          ((List.range 6).getD 5 0) = some 5 := by decide
      rw [hfv] at hle
      simpa [cLeN, cLe] using hle
  refine ⟨by decide, by decide, ?_⟩
  exact router_swap_count_is_dist_minus_one line6 hwf (List.range 6) (List.range 6)
    [(0, 5, 0), (0, 5, 1)] 10 RChoice.both 0 5 0 5 hdist (by decide) (by decide)

/-! ### C3: behaviour on disconnected topologies -/

/-- C3 (counterexample).  On the two-component topology `disc2` with a CNOT
crossing the components, routing completes normally — it returns zero swaps
and the unchanged mapping instead of failing with a *no-path* error
(`get_shortest_path` returns `[]` and `__apply_cnot` walks empty paths). -/
theorem no_path_counterexample :
    routeCircuit rdisc (fun _ => RChoice.both) = (([0, 1], [0, 1]), [[[], []]], 0) := by
  decide

/-- C3 (amended claim theorem).  When the two mapped nodes lie in different
connected components (no walk joins them), `__apply_cnot` raises no error:
it records the empty swap pair, counts zero swaps and leaves the mapping
unchanged, and routing continues. -/
theorem no_path_routing_silently_continues
    (g : UUGraph) (hwf : g.WF) (cnots : List Cnot) (lookahead : Nat)
    (oracle : RChoice) (st : MapState) (c t i : Nat)
    (hnowalk : ∀ n, ¬ PWalk g (st.1.getD c 0) (st.1.getD t 0) n) :
    applyCnot g (floydWarshall g) cnots lookahead oracle st c t i
      = (st, [[], []], 0) := by
  have hadj : g.are_adjacent (st.1.getD c 0) (st.1.getD t 0) = false := by
    by_contra hne
    have hadj' : g.adj (st.1.getD c 0) (st.1.getD t 0) = true := by
      rw [UUGraph.are_adjacent] at hne
      revert hne
      cases g.adj (st.1.getD c 0) (st.1.getD t 0) <;> simp
    exact hnowalk 1 (PWalk.cons hadj' (PWalk.nil _))
  have hdist : (floydWarshall g).1 (st.1.getD c 0) (st.1.getD t 0) = none := by
    rcases hfin : (floydWarshall g).1 (st.1.getD c 0) (st.1.getD t 0) with _ | cv
    · rfl
    · exact absurd (fw_walk_of_fin g hwf hfin) (hnowalk cv)
  have hpath : getShortestPath (floydWarshall g) (st.1.getD c 0) (st.1.getD t 0) = [] := by
    unfold getShortestPath
    rw [hdist]
  unfold applyCnot
  simp only [hadj, Bool.false_eq_true, if_false, hpath]
  have hempty : ∀ s : Int, pathsForStrategy s c t [] = ([], []) := by
    intro s
    unfold pathsForStrategy splitPaths
    by_cases h1 : s = (t : Int)
    · simp [h1]
    · by_cases h2 : s = (c : Int) <;> simp [h1, h2]
  rw [hempty]
  rfl

/-- Witness for the amended C3 theorem at the concrete disconnected input. -/
theorem no_path_routing_silently_continues_witness :
    applyCnot disc2 (floydWarshall disc2) [(0, 1, 0)] 10 RChoice.both
      ([0, 1], [0, 1]) 0 1 0 = (([0, 1], [0, 1]), [[], []], 0) := by
  have hwf : disc2.WF := fromEdges_WF 2 [] (by decide)
  refine no_path_routing_silently_continues disc2 hwf [(0, 1, 0)] 10 RChoice.both
    ([0, 1], [0, 1]) 0 1 0 ?_
  intro n hw
  have hle := fw_le_walk disc2 hwf hw
  have hfv : (floydWarshall disc2).1 ((([0, 1], [0, 1]) : MapState).1.getD 0 0)
      ((([0, 1], [0, 1]) : MapState).1.getD 1 0) = none := by decide
  rw [hfv] at hle
  simpa [cLeN, cLe] using hle

/-! ### C10: the lookahead window always contains the current triple -/

theorem pairStep_aligned (w : List Nat) (i : Nat) (acc : List Cnot × Nat) (j : Nat)
    (h : SeqAligned acc) : SeqAligned (interactionPairStep w i acc j) := by
  unfold interactionPairStep
  by_cases hij : i < j
  · rw [if_pos hij]
    obtain ⟨h1, h2⟩ := h
    refine ⟨by simp [h1], ?_⟩
    intro p hp
    simp only [List.length_append, List.length_cons, List.length_nil] at hp
    by_cases hlt : p < acc.1.length
    · rw [List.getD_append _ _ _ _ hlt]
      exact h2 p hlt
    · have hpe : p = acc.1.length := by omega
      rw [List.getD_append_right _ _ _ _ (by omega), hpe]
      simp [h1]
  · rw [if_neg hij]
    exact h

theorem gateStep_aligned (acc : List Cnot × Nat) (w : List Nat)
    (h : SeqAligned acc) : SeqAligned (interactionGateStep acc w) := by
  unfold interactionGateStep
  by_cases hw : w.length ≥ 2
  · rw [if_pos hw]
    refine List.foldlRecOn (List.range w.length) _ acc h ?_
    intro b hb i _
    refine List.foldlRecOn (List.range w.length) _ b hb ?_
    intro b' hb' j _
    exact pairStep_aligned w i b' j hb'
  · rw [if_neg hw]
    exact h

/-- The driver's `get_interaction_list` stores each triple's position as its
`seq` component. -/
theorem getInteractionList_seq (ops : List (List Nat)) :
    ∀ p, p < (getInteractionList ops).length →
      ((getInteractionList ops).getD p (0, 0, 0)).2.2 = p := by
  have h : SeqAligned (ops.foldl interactionGateStep ([], 0)) := by
    refine List.foldlRecOn ops interactionGateStep ([], 0) ⟨rfl, by simp⟩ ?_
    intro b hb w _
    exact gateStep_aligned b w hb
  exact h.2

/-- The element at position `p` belongs to the window starting at `p`. -/
theorem getD_mem_lookWindow (cnots : List Cnot) {la p : Nat} (hla : 1 ≤ la)
    (hp : p < cnots.length) :
    cnots.getD p (0, 0, 0) ∈ lookWindow cnots la p := by
  unfold lookWindow
  have hdrop : cnots.drop p = cnots.getD p (0, 0, 0) :: cnots.drop (p + 1) := by
    rw [List.getD_eq_getElem cnots (0, 0, 0) hp]
    exact List.drop_eq_getElem_cons hp
  rw [hdrop]
  match la, hla with
  | la' + 1, _ => simp [List.take_succ_cons]

/-- When both lookahead counts cannot vanish the strategy ignores the random
draw. -/
theorem swapStrategy_oracle_indep (cnots : List Cnot) (la : Nat) (o1 o2 : RChoice)
    (i c t : Nat)
    (h : ¬(controlCount (lookWindow cnots la i) c = 0
        ∧ controlCount (lookWindow cnots la i) t = 0)) :
    swapStrategyByLookahead cnots la o1 i c t
      = swapStrategyByLookahead cnots la o2 i c t := by
  simp only [swapStrategyByLookahead]
  rw [if_neg h, if_neg h]

theorem applyCnot_oracle_indep (g : UUGraph) (dn : DMat × NMat) (cnots : List Cnot)
    (la : Nat) (o1 o2 : RChoice) (st : MapState) (c t i : Nat)
    (h : ¬(controlCount (lookWindow cnots la i) c = 0
        ∧ controlCount (lookWindow cnots la i) t = 0)) :
    applyCnot g dn cnots la o1 st c t i = applyCnot g dn cnots la o2 st c t i := by
  have hs := swapStrategy_oracle_indep cnots la o1 o2 i c t h
  unfold applyCnot
  rw [hs]

/-- Induction core for C10: every processed triple of an aligned prefix sees
itself in its lookahead window, so the route is oracle-independent. -/
theorem routeLoop_oracle_indep (r : Router)
    (hseq : ∀ p, p < r.cnots.length → (r.cnots.getD p (0, 0, 0)).2.2 = p)
    (hla : 1 ≤ r.lookahead) (o1 o2 : Nat → RChoice) :
    ∀ (lst : List Cnot) (pos : Nat) (st : MapState),
      (∀ q, q < lst.length → pos + q < r.cnots.length
        ∧ lst.getD q (0, 0, 0) = r.cnots.getD (pos + q) (0, 0, 0)) →
      routeLoop r o1 lst pos st = routeLoop r o2 lst pos st := by
  intro lst
  induction lst with
  | nil => intro pos st _; rfl
  | cons hd rest ih =>
    intro pos st halign
    obtain ⟨c, t, i⟩ := hd
    have h0 := halign 0 (by simp)
    have h0len : pos < r.cnots.length := by simpa using h0.1
    have h0get : (c, t, i) = r.cnots.getD pos (0, 0, 0) := by simpa using h0.2
    have hi : i = pos := by
      have := hseq pos h0len
      rw [← h0get] at this
      exact this
    have hmem : (c, t, i) ∈ lookWindow r.cnots r.lookahead i := by
      rw [hi] at h0get ⊢
      rw [h0get]
      exact getD_mem_lookWindow r.cnots hla h0len
    have hcc : 0 < controlCount (lookWindow r.cnots r.lookahead i) c := by
      refine List.countP_pos.2 ⟨(c, t, i), hmem, ?_⟩
      simp
    have hcond : ¬(controlCount (lookWindow r.cnots r.lookahead i) c = 0
        ∧ controlCount (lookWindow r.cnots r.lookahead i) t = 0) := by
      intro hcontra
      omega
    have happ := applyCnot_oracle_indep r.graph r.dn r.cnots r.lookahead
      (o1 pos) (o2 pos) st c t i hcond
    simp only [routeLoop]
    rw [happ, ih (pos + 1) _ ?_]
    intro q hq
    have := halign (q + 1) (by simpa using Nat.succ_lt_succ hq)
    constructor
    · have h1 := this.1
      omega
    · have h2 := this.2
      have he : pos + (q + 1) = pos + 1 + q := by omega
      rw [he] at h2
      simpa using h2

/-- C10 (claim theorem).  (a) The driver's `get_interaction_list` gives the
triple at position `p` the sequence number `p`.  (b) For any interaction
list with that property and any lookahead ≥ 1, each processed triple counts
itself, so `control_count ≥ 1` and `target_count ≥ 1` always hold — the
random three-way branch of `__swap_strategy_by_lookahead` is unreachable and
routing is fully deterministic (independent of the random oracle). -/
theorem lookahead_self_count_and_determinism :
    (∀ (ops : List (List Nat)) (p : Nat), p < (getInteractionList ops).length →
        ((getInteractionList ops).getD p (0, 0, 0)).2.2 = p)
    ∧ (∀ (cnots : List Cnot) (lookahead : Nat), 1 ≤ lookahead →
        (∀ p, p < cnots.length → (cnots.getD p (0, 0, 0)).2.2 = p) →
        (∀ p, p < cnots.length →
          1 ≤ controlCount (lookWindow cnots lookahead ((cnots.getD p (0, 0, 0)).2.2))
              (cnots.getD p (0, 0, 0)).1
          ∧ 1 ≤ controlCount (lookWindow cnots lookahead ((cnots.getD p (0, 0, 0)).2.2))
              (cnots.getD p (0, 0, 0)).2.1)
        ∧ ∀ (topology : UUGraph) (l2p p2l : List Nat) (o1 o2 : Nat → RChoice) (m : Nat),
            routeCircuitPortion (Router.init topology l2p p2l cnots lookahead) o1 m
              = routeCircuitPortion (Router.init topology l2p p2l cnots lookahead) o2 m) := by
  constructor
  · exact getInteractionList_seq
  · intro cnots lookahead hla hseq
    constructor
    · intro p hp
      rw [hseq p hp]
      have hmem := getD_mem_lookWindow cnots hla hp
      constructor
      · refine List.countP_pos.2 ⟨cnots.getD p (0, 0, 0), hmem, ?_⟩
        simp
      · refine List.countP_pos.2 ⟨cnots.getD p (0, 0, 0), hmem, ?_⟩
        simp
    · intro topology l2p p2l o1 o2 m
      unfold routeCircuitPortion
      refine routeLoop_oracle_indep (Router.init topology l2p p2l cnots lookahead)
        hseq hla o1 o2 (cnots.take m) 0 (l2p, p2l) ?_
      intro q hq
      rw [List.length_take] at hq
      have hqlen : q < cnots.length := by omega
      have hqm : q < m := by omega
      have hrc : (Router.init topology l2p p2l cnots lookahead).cnots = cnots := rfl
      rw [hrc]
      constructor
      · omega
      · rw [Nat.zero_add]
        simp [List.getD_eq_getElem?_getD, List.getElem?_take, hqm]

/-- Witness for C10 at the concrete driver-style input of `r6` (seq numbers
0,1; lookahead 10): routing is identical under two different oracles. -/
theorem lookahead_self_count_and_determinism_witness :
    routeCircuitPortion (Router.init line6 (List.range 6) (List.range 6)
        [(0, 5, 0), (0, 5, 1)] 10) (fun _ => RChoice.ctrl) 2
      = routeCircuitPortion (Router.init line6 (List.range 6) (List.range 6)
        [(0, 5, 0), (0, 5, 1)] 10) (fun _ => RChoice.both) 2 :=
  (lookahead_self_count_and_determinism.2 [(0, 5, 0), (0, 5, 1)] 10 (by omega)
    (by decide)).2 line6 (List.range 6) (List.range 6)
    (fun _ => RChoice.ctrl) (fun _ => RChoice.both) 2

/-! ### C6: the refinement wrapper MapperUpdater -/

/-- C6 (claim theorem).  `update_mapping` routes the given prefix once from
the initial mapper `M₀` (count `n₁`, final placement `M₁ = (l2p1, p2l1)`),
builds a fresh router seeded with `M₁`, routes the same prefix again
(count `n₂`), and returns `M₁` exactly when `n₂ < n₁` and `M₀` otherwise;
in particular `n₁ = 5, n₂ = 7` yields `M₀`. -/
theorem refinement_reroutes_and_compares
    (topology : UUGraph) (mapper : Mapper) (cnots : List Cnot) (lookahead : Nat)
    (o1 o2 : Nat → RChoice) (n1 n2 : Nat) (l2p1 p2l1 : List Nat)
    (hM : (routeCircuit (Router.init topology mapper.l2p mapper.p2l cnots lookahead) o1).1
        = (l2p1, p2l1))
    (hn1 : (routeCircuit (Router.init topology mapper.l2p mapper.p2l cnots lookahead) o1).2.2
        = n1)
    (hn2 : (routeCircuit (Router.init topology l2p1 p2l1 cnots lookahead) o2).2.2 = n2) :
    updateMapping topology mapper cnots lookahead o1 o2
      = (if n2 < n1 then ⟨l2p1, p2l1⟩ else mapper)
    ∧ (n1 = 5 → n2 = 7 → updateMapping topology mapper cnots lookahead o1 o2 = mapper) := by
  have hmain : updateMapping topology mapper cnots lookahead o1 o2
      = (if n2 < n1 then ⟨l2p1, p2l1⟩ else mapper) := by
    unfold updateMapping
    dsimp only
    rw [hM, hn1]
    dsimp only
    rw [hn2]
  refine ⟨hmain, ?_⟩
  intro h5 h7
  rw [hmain, h5, h7]
  simp

/-- Witness for C6: on `line6` with identity start, the prefix routes with
`n₁ = 5` and re-routing from the final placement gives `n₂ = 0 < 5`, so the
fresh mapper is returned. -/
theorem refinement_reroutes_and_compares_witness :
    updateMapping line6 ⟨List.range 6, List.range 6⟩ [(0, 5, 0), (0, 5, 1)] 10
        (fun _ => RChoice.both) (fun _ => RChoice.both)
      = (if 0 < 5 then (⟨[3, 0, 1, 5, 2, 4], [1, 2, 4, 0, 5, 3]⟩ : Mapper)
          else ⟨List.range 6, List.range 6⟩) :=
  (refinement_reroutes_and_compares line6 ⟨List.range 6, List.range 6⟩
    [(0, 5, 0), (0, 5, 1)] 10 (fun _ => RChoice.both) (fun _ => RChoice.both)
    5 0 [3, 0, 1, 5, 2, 4] [1, 2, 4, 0, 5, 3]
    (by decide) (by decide) (by decide)).1

/-! ### Multiset behaviour of the heapq embedding -/

theorem getD_set_eq_of_lt {α : Type} (l : List α) (i : Nat) (a d : α)
    (h : i < l.length) : (l.set i a).getD i d = a := by
  rw [List.getD_eq_getElem _ _ (by rw [List.length_set]; exact h)]
  exact List.getElem_set_self _

theorem getD_set_neq {α : Type} (l : List α) (i j : Nat) (a d : α)
    (h : i ≠ j) : (l.set i a).getD j d = l.getD j d := by
  by_cases hj : j < l.length
  · rw [List.getD_eq_getElem _ _ (by rw [List.length_set]; exact hj),
      List.getD_eq_getElem _ _ hj]
    exact List.getElem_set_ne h _
  · rw [List.getD_eq_default _ _ (by rw [List.length_set]; omega),
      List.getD_eq_default _ _ (by omega)]

/-- Writing `l[j]` into slot `i` and then `a` into slot `j` is, up to
permutation, the same as writing `a` into slot `i`. -/
theorem set_set_perm {α : Type} [DecidableEq α] {l : List α} {i j : Nat}
    (hi : i < l.length) (hj : j < l.length) (hij : i ≠ j) (d a : α) :
    ((l.set i (l.getD j d)).set j a).Perm (l.set i a) := by
  rw [List.perm_iff_count]
  intro b
  have hj1 : j < (l.set i (l.getD j d)).length := by rw [List.length_set]; exact hj
  rw [List.count_set _ _ _ _ hj1, List.count_set _ _ _ _ hi, List.count_set _ _ _ _ hi]
  have hget : (l.set i (l.getD j d))[j] = l[j] := List.getElem_set_ne hij _
  rw [hget]
  rw [List.getD_eq_getElem _ _ hj]
  by_cases h1 : l[i] = b <;> by_cases h2 : l[j] = b <;> by_cases h3 : a = b <;>
    simp [h1, h2, h3] <;> omega

theorem siftdownA_perm {α : Type} [DecidableEq α] (lt : α → α → Bool) :
    ∀ (fuel : Nat) (pos : Nat) (heap : List α) (startpos : Nat) (newitem : α),
      pos < heap.length →
      (siftdownA lt fuel heap startpos pos newitem).Perm (heap.set pos newitem) := by
  intro fuel
  induction fuel with
  | zero => intro pos heap s x _; exact List.Perm.refl _
  | succ fuel ih =>
    intro pos heap s x hpos
    rw [siftdownA]
    by_cases h : s < pos
    · rw [if_pos h]
      by_cases hlt : lt x (heap.getD ((pos - 1) / 2) x) = true
      · rw [if_pos hlt]
        have hrec := ih ((pos - 1) / 2) (heap.set pos (heap.getD ((pos - 1) / 2) x))
          s x (by rw [List.length_set]; omega)
        refine hrec.trans ?_
        exact set_set_perm hpos (by omega) (by omega) x x
      · rw [if_neg hlt]
    · rw [if_neg h]

theorem siftupA_perm {α : Type} [DecidableEq α] (lt : α → α → Bool) :
    ∀ (fuel : Nat) (heap : List α) (startpos pos endpos : Nat) (newitem : α),
      pos < endpos → endpos ≤ heap.length →
      (siftupA lt fuel heap startpos pos endpos newitem).Perm (heap.set pos newitem) := by
  intro fuel
  induction fuel with
  | zero =>
    intro heap s pos endpos x hp hlen
    rw [siftupA]
    refine (siftdownA_perm lt pos pos (heap.set pos x) s x
      (by rw [List.length_set]; omega)).trans ?_
    rw [List.set_set]
  | succ fuel ih =>
    intro heap s pos endpos x hp hlen
    rw [siftupA]
    dsimp only
    by_cases h : 2 * pos + 1 < endpos
    · rw [if_pos h]
      by_cases hcc : 2 * pos + 1 + 1 < endpos
          ∧ ¬ lt (heap.getD (2 * pos + 1) x) (heap.getD (2 * pos + 1 + 1) x) = true
      · rw [if_pos hcc]
        have hrec := ih (heap.set pos (heap.getD (2 * pos + 1 + 1) x)) s
          (2 * pos + 1 + 1) endpos x (by omega) (by rw [List.length_set]; exact hlen)
        refine hrec.trans ?_
        exact set_set_perm (by omega) (by omega) (by omega) x x
      · rw [if_neg hcc]
        have hrec := ih (heap.set pos (heap.getD (2 * pos + 1) x)) s
          (2 * pos + 1) endpos x (by omega) (by rw [List.length_set]; exact hlen)
        refine hrec.trans ?_
        exact set_set_perm (by omega) (by omega) (by omega) x x
    · rw [if_neg h]
      refine (siftdownA_perm lt pos pos (heap.set pos x) s x
        (by rw [List.length_set]; omega)).trans ?_
      rw [List.set_set]

theorem heappush_perm {α : Type} [DecidableEq α] (lt : α → α → Bool)
    (heap : List α) (item : α) : (heappush lt heap item).Perm (item :: heap) := by
  unfold heappush
  have h1 := siftdownA_perm lt heap.length heap.length (heap ++ [item]) 0 item
    (by rw [List.length_append]; simp)
  refine (h1.trans ?_).trans (List.perm_append_singleton item heap)
  have hset : (heap ++ [item]).set heap.length item = heap ++ [item] := by
    rw [List.set_append_right _ _ (le_refl _)]
    simp
  rw [hset]

/-- A nonempty list is a permutation of its last element consed onto its
`dropLast`. -/
theorem perm_getLast_dropLast {α : Type} (l : List α) (h : l ≠ []) :
    l.Perm (l.getLast h :: l.dropLast) := by
  conv_lhs => rw [← List.dropLast_append_getLast h]
  exact List.perm_append_singleton _ _

theorem heappop_perm {α : Type} [DecidableEq α] (lt : α → α → Bool)
    (heap : List α) (r : α) (rest : List α) (h : heappop lt heap = some (r, rest)) :
    heap.Perm (r :: rest) := by
  match heap, h with
  | [x], h =>
    simp only [heappop, Option.some.injEq, Prod.mk.injEq] at h
    rw [← h.1, ← h.2]
  | x :: y :: t, h =>
    simp only [heappop, Option.some.injEq, Prod.mk.injEq] at h
    obtain ⟨hx, hrest⟩ := h
    subst hx
    subst hrest
    have hlast : (y :: t) ≠ [] := by simp
    have hEq : ((x :: (y :: t).dropLast).set 0 ((y :: t).getLast hlast)).set 0
        ((y :: t).getLast hlast) = (y :: t).getLast hlast :: (y :: t).dropLast := by
      rw [List.set_set, List.set_cons_zero]
    have hsift := siftupA_perm lt ((x :: (y :: t).dropLast).length)
      ((x :: (y :: t).dropLast).set 0 ((y :: t).getLast hlast)) 0 0
      (x :: (y :: t).dropLast).length ((y :: t).getLast hlast)
      (by simp) (by rw [List.length_set])
    rw [hEq] at hsift
    exact List.Perm.cons x ((perm_getLast_dropLast _ hlast).trans hsift.symm)
  | [], h => exact Option.noConfusion h

/-- Folding `heappush` over a list yields a permutation of the pushed
objects. -/
theorem pushFold_perm (f : Nat → KeyVal) :
    ∀ (l : List Nat) (h : List KeyVal),
      (l.foldl (fun h q => heappush kvLt h (f q)) h).Perm (l.map f ++ h) := by
  intro l
  induction l with
  | nil => intro h; simp
  | cons q rest ih =>
    intro h
    simp only [List.foldl_cons, List.map_cons, List.cons_append]
    refine (ih (heappush kvLt h (f q))).trans ?_
    refine (List.Perm.append_left (rest.map f) (heappush_perm kvLt h (f q))).trans ?_
    exact List.perm_middle

theorem majorityLogicalHeap_keys (cnots : List Cnot) (qubits : Nat) :
    ((majorityLogicalHeap cnots qubits).map KeyVal.key).Perm (List.range qubits) := by
  unfold majorityLogicalHeap
  have h := pushFold_perm (fun q => (⟨q, (interactSets cnots q).card⟩ : KeyVal))
    (List.range qubits) []
  have h2 := h.map KeyVal.key
  simp only [List.append_nil, List.map_map] at h2
  have h3 : List.map (KeyVal.key ∘ fun q => (⟨q, (interactSets cnots q).card⟩ : KeyVal))
      (List.range qubits) = List.range qubits := by
    simp [Function.comp_def]
  rw [h3] at h2
  exact h2

theorem majorityNodeHeap_keys (n : Nat) (edges : List (Nat × Nat)) :
    ((majorityNodeHeap n edges).map KeyVal.key).Perm (List.range n) := by
  unfold majorityNodeHeap
  have h := pushFold_perm (fun u => (⟨u, (nxNeighbours edges u).card⟩ : KeyVal))
    (List.range n) []
  have h2 := h.map KeyVal.key
  simp only [List.append_nil, List.map_map] at h2
  have h3 : List.map (KeyVal.key ∘ fun u => (⟨u, (nxNeighbours edges u).card⟩ : KeyVal))
      (List.range n) = List.range n := by
    simp [Function.comp_def]
  rw [h3] at h2
  exact h2

/-- Invariant induction over the `compute_mapping` loop of the majority
mapper: every already-assigned qubit holds a distinct node with the inverse
entry in place. -/
theorem majorityLoop_spec (Q : Nat) :
    ∀ (k : Nat) (hq hn : List KeyVal) (st res : List Nat × List Nat),
      st.1.length = Q → st.2.length = Q →
      hq.length = k →
      ((hq.map KeyVal.key).Nodup) → ((hn.map KeyVal.key).Nodup) →
      (∀ x ∈ hq, x.key < Q) →
      (∀ q, q < Q → ¬ q ∈ hq.map KeyVal.key →
        ∃ u, u < Q ∧ ¬ u ∈ hn.map KeyVal.key ∧ st.1.getD q 0 = u ∧ st.2.getD u 0 = q) →
      majorityLoop k hq hn st = some res →
      res.1.length = Q ∧ res.2.length = Q ∧
        (∀ q, q < Q → ∃ u, u < Q ∧ res.1.getD q 0 = u ∧ res.2.getD u 0 = q) := by
  intro k
  induction k with
  | zero =>
    intro hq hn st res h1 h2 hlen hnq hnn hbq hinv hloop
    simp only [majorityLoop, Option.some.injEq] at hloop
    subst hloop
    have hempty : hq = [] := List.length_eq_zero.1 hlen
    subst hempty
    refine ⟨h1, h2, ?_⟩
    intro q hqQ
    rcases hinv q hqQ (by simp) with ⟨u, hu, _, hl, hp⟩
    exact ⟨u, hu, hl, hp⟩
  | succ k ih =>
    intro hq hn st res h1 h2 hlen hnq hnn hbq hinv hloop
    rw [majorityLoop] at hloop
    rcases hpopq : heappop kvLt hq with _ | ⟨qobj, hq'⟩
    · rw [hpopq] at hloop; exact Option.noConfusion hloop
    rcases hpopn : heappop kvLt hn with _ | ⟨nobj, hn'⟩
    · rw [hpopq, hpopn] at hloop; exact Option.noConfusion hloop
    rw [hpopq, hpopn] at hloop
    have hloop2 : (if nobj.key < st.2.length then
        majorityLoop k hq' hn' (st.1.set qobj.key nobj.key, st.2.set nobj.key qobj.key)
      else none) = some res := hloop
    by_cases hguard : nobj.key < st.2.length
    · rw [if_pos hguard] at hloop2
      have hpq : hq.Perm (qobj :: hq') := heappop_perm kvLt hq qobj hq' hpopq
      have hpn : hn.Perm (nobj :: hn') := heappop_perm kvLt hn nobj hn' hpopn
      have hkq : (hq.map KeyVal.key).Perm (qobj.key :: hq'.map KeyVal.key) := hpq.map _
      have hkn : (hn.map KeyVal.key).Perm (nobj.key :: hn'.map KeyVal.key) := hpn.map _
      have hnq' : (qobj.key :: hq'.map KeyVal.key).Nodup := hkq.nodup_iff.1 hnq
      have hnn' : (nobj.key :: hn'.map KeyVal.key).Nodup := hkn.nodup_iff.1 hnn
      have hqmem : qobj.key < Q := hbq qobj (hpq.mem_iff.2 (List.mem_cons_self _ _))
      have hnode : nobj.key < Q := by rw [h2] at hguard; exact hguard
      refine ih hq' hn' (st.1.set qobj.key nobj.key, st.2.set nobj.key qobj.key) res
        (by simp [List.length_set, h1]) (by simp [List.length_set, h2])
        (by have := hpq.length_eq; simp at this; omega)
        (List.Nodup.of_cons hnq') (List.Nodup.of_cons hnn')
        (fun x hx => hbq x (hpq.mem_iff.2 (List.mem_cons_of_mem _ hx)))
        ?_ hloop2
      intro q hqQ hqnot
      by_cases hqe : q = qobj.key
      · subst hqe
        refine ⟨nobj.key, hnode, ?_, ?_, ?_⟩
        · simp only [List.nodup_cons] at hnn'
          exact hnn'.1
        · exact getD_set_eq_of_lt _ _ _ _ (by omega)
        · exact getD_set_eq_of_lt _ _ _ _ (by omega)
      · have hqnotfull : ¬ q ∈ hq.map KeyVal.key := by
          intro hmem
          rcases List.mem_cons.1 (hkq.mem_iff.1 hmem) with h | h
          · exact hqe h
          · exact hqnot h
        rcases hinv q hqQ hqnotfull with ⟨u, hu, hunot, hl, hp⟩
        have hune : u ≠ nobj.key := by
          intro he
          exact hunot (hkn.mem_iff.2 (by rw [he]; exact List.mem_cons_self _ _))
        refine ⟨u, hu, ?_, ?_, ?_⟩
        · intro hmem
          exact hunot (hkn.mem_iff.2 (List.mem_cons_of_mem _ hmem))
        · rw [getD_set_neq _ _ _ _ _ (fun he => hqe he.symm)]
          exact hl
        · rw [getD_set_neq _ _ _ _ _ (fun he => hune he.symm)]
          exact hp
    · rw [if_neg hguard] at hloop2
      exact Option.noConfusion hloop2

/-- A length-`Q` list with distinct in-range entries is a permutation of
`range Q`. -/
theorem perm_range_of_inj (l : List Nat) (Q : Nat) (hlen : l.length = Q)
    (hlt : ∀ i, i < Q → l.getD i 0 < Q)
    (hinj : ∀ i j, i < Q → j < Q → i ≠ j → l.getD i 0 ≠ l.getD j 0) :
    l.Perm (List.range Q) := by
  have hnodup : l.Nodup := by
    rw [List.nodup_iff_injective_get]
    intro i j heq
    by_contra hne
    have hij : (i : Nat) ≠ (j : Nat) := fun h => hne (Fin.ext h)
    refine hinj i j (by omega) (by omega) hij ?_
    rw [List.getD_eq_getElem _ _ (by omega), List.getD_eq_getElem _ _ (by omega)]
    simpa [List.get_eq_getElem] using heq
  have hsub : l ⊆ List.range Q := by
    intro x hx
    rcases List.mem_iff_get.1 hx with ⟨i, hi⟩
    rw [List.mem_range]
    have := hlt i (by omega)
    rw [List.getD_eq_getElem _ _ (by omega)] at this
    simpa [← hi, List.get_eq_getElem] using this
  exact (List.subperm_of_subset hnodup hsub).perm_of_length_le
    (by rw [List.length_range]; omega)

/-- The majority mapper, whenever it completes, produces a permutation with
`p_to_l` inverse to `l_to_p`. -/
theorem computeMappingMaj_perm (n : Nat) (edges : List (Nat × Nat))
    (cnots : List Cnot) (Q : Nat) (l2p p2l : List Nat)
    (h : computeMappingMaj n edges cnots Q = some (l2p, p2l)) :
    l2p.Perm (List.range Q) ∧ ∀ q, q < Q → p2l.getD (l2p.getD q 0) 0 = q := by
  have hkq := majorityLogicalHeap_keys cnots Q
  have hkn := majorityNodeHeap_keys n edges
  have hspec := majorityLoop_spec Q Q (majorityLogicalHeap cnots Q)
    (majorityNodeHeap n edges) (List.range Q, List.range Q) (l2p, p2l)
    (by simp) (by simp)
    (by have := hkq.length_eq; simpa using this)
    (hkq.nodup_iff.2 (List.nodup_range Q)) (hkn.nodup_iff.2 (List.nodup_range n))
    (by
      intro x hx
      have : x.key ∈ (majorityLogicalHeap cnots Q).map KeyVal.key :=
        List.mem_map_of_mem _ hx
      have := hkq.mem_iff.1 this
      simpa using this)
    (by
      intro q hq hnot
      exact absurd (hkq.mem_iff.2 (by simpa using hq)) hnot)
    h
  obtain ⟨hl1, _, hP⟩ := hspec
  constructor
  · refine perm_range_of_inj l2p Q hl1 ?_ ?_
    · intro i hi
      rcases hP i hi with ⟨u, hu, he, _⟩
      rw [he]; exact hu
    · intro i j hi hj hne
      rcases hP i hi with ⟨u, _, he1, hp1⟩
      rcases hP j hj with ⟨v, _, he2, hp2⟩
      rw [he1, he2]
      intro huv
      rw [huv] at hp1
      rw [hp1] at hp2
      exact hne hp2
  · intro q hq
    rcases hP q hq with ⟨u, _, he, hp⟩
    rw [he]; exact hp

/-! ### Permutation helpers shared by the placement proofs -/

theorem set_getD_self (l : List Nat) (i : Nat) (d : Nat) (h : i < l.length) :
    l.set i (l.getD i d) = l := by
  rw [List.getD_eq_getElem _ _ h]
  apply List.ext_getElem
  · simp
  · intro n h1 h2
    by_cases hn : n = i
    · subst hn; simp [List.getElem_set_self]
    · rw [List.getElem_set_ne (fun he => hn he.symm)]

theorem perm_range_getD_lt {l : List Nat} {Q : Nat} (h : l.Perm (List.range Q))
    {q : Nat} (hq : q < Q) : l.getD q 0 < Q := by
  have hlen : l.length = Q := by have := h.length_eq; simpa using this
  rw [List.getD_eq_getElem _ _ (by omega)]
  have hmem : l[q] ∈ l := List.getElem_mem _
  have := h.mem_iff.1 hmem
  simpa using this

theorem perm_range_surj {l : List Nat} {Q : Nat} (h : l.Perm (List.range Q))
    {u : Nat} (hu : u < Q) : ∃ q, q < Q ∧ l.getD q 0 = u := by
  have hlen : l.length = Q := by have := h.length_eq; simpa using this
  have hmem : u ∈ l := h.mem_iff.2 (by simpa using hu)
  rcases List.getElem_of_mem hmem with ⟨q, hqlen, hget⟩
  exact ⟨q, by omega, by rw [List.getD_eq_getElem _ _ hqlen]; exact hget⟩

/-- The inverse-permutation invariant on a placement pair. -/
theorem inverse_getD_lt {L P : List Nat} {Q : Nat} (hperm : L.Perm (List.range Q))
    (hinv : ∀ q, q < Q → P.getD (L.getD q 0) 0 = q) {u : Nat} (hu : u < Q) :
    P.getD u 0 < Q := by
  rcases perm_range_surj hperm hu with ⟨q, hq, hLq⟩
  rw [← hLq, hinv q hq]
  exact hq

/-! ### RandomMapper: shuffle plus `physic_to_logical` -/

theorem enumFold_frame :
    ∀ (l : List Nat) (s : Nat) (acc : List Nat) (idx : Nat), ¬ idx ∈ l →
      ((l.enumFrom s).foldl (fun a qv => a.set qv.2 qv.1) acc).getD idx 0
        = acc.getD idx 0 := by
  intro l
  induction l with
  | nil => intro s acc idx _; rfl
  | cons v rest ih =>
    intro s acc idx hidx
    rw [List.enumFrom_cons, List.foldl_cons]
    have hne : ¬ idx ∈ rest := fun h => hidx (List.mem_cons_of_mem _ h)
    have hnev : v ≠ idx := fun h => hidx (h ▸ List.mem_cons_self _ _)
    rw [ih (s + 1) _ idx hne]
    exact getD_set_neq _ _ _ _ _ hnev

theorem enumFold_getD :
    ∀ (l : List Nat) (s : Nat) (acc : List Nat), l.Nodup →
      (∀ v ∈ l, v < acc.length) →
      ∀ j, j < l.length →
        ((l.enumFrom s).foldl (fun a qv => a.set qv.2 qv.1) acc).getD (l.getD j 0) 0
          = s + j := by
  intro l
  induction l with
  | nil => intro s acc _ _ j hj; simp at hj
  | cons v rest ih =>
    intro s acc hnodup hbound j hj
    rw [List.enumFrom_cons, List.foldl_cons]
    rcases List.nodup_cons.1 hnodup with ⟨hvnot, hnodup'⟩
    match j with
    | 0 =>
      simp only [List.getD_cons_zero]
      rw [enumFold_frame rest (s + 1) _ v hvnot]
      rw [getD_set_eq_of_lt _ _ _ _ (hbound v (List.mem_cons_self _ _))]
      omega
    | j + 1 =>
      simp only [List.getD_cons_succ]
      have := ih (s + 1) (acc.set v s) hnodup'
        (fun x hx => by rw [List.length_set]; exact hbound x (List.mem_cons_of_mem _ hx))
        j (by simpa using Nat.lt_of_succ_lt_succ hj)
      rw [this]
      omega

/-- `RandomMapper.compute_mapping` (any shuffle outcome) yields a
permutation with `p_to_l` its inverse. -/
theorem randomMapper_perm (Q : Nat) (shuffled : List Nat)
    (hperm : shuffled.Perm (List.range Q)) :
    (randomMapperMaps Q shuffled).1.Perm (List.range Q)
      ∧ ∀ q, q < Q →
        (randomMapperMaps Q shuffled).2.getD ((randomMapperMaps Q shuffled).1.getD q 0) 0
          = q := by
  have hlen : shuffled.length = Q := by have := hperm.length_eq; simpa using this
  refine ⟨hperm, ?_⟩
  intro q hq
  have hnodup : shuffled.Nodup := hperm.nodup_iff.2 (List.nodup_range Q)
  have hbound : ∀ v ∈ shuffled, v < (List.range Q).length := by
    intro v hv
    have := hperm.mem_iff.1 hv
    simpa using this
  have := enumFold_getD shuffled 0 (List.range Q) hnodup hbound q (by omega)
  simp only [Nat.zero_add] at this
  simpa [randomMapperMaps, physicToLogical, List.enum_eq_enumFrom] using this

/-! ### The router swap step preserves the permutation invariant -/

/-- One recorded SWAP of `__move_through_path` keeps `L2P` a permutation and
`P2L` its pointwise inverse. -/
theorem moveStep_preserves_inverse (Q : Nat) (st : MapState) (qubit qubit_node node : Nat)
    (hperm : st.1.Perm (List.range Q))
    (hinv : ∀ q, q < Q → st.2.getD (st.1.getD q 0) 0 = q)
    (hplen : st.2.length = Q)
    (hq : qubit < Q) (hnode : node < Q)
    (hqn : st.1.getD qubit 0 = qubit_node) :
    (moveStep st qubit qubit_node node).1.1.Perm (List.range Q)
      ∧ (∀ q, q < Q →
          (moveStep st qubit qubit_node node).1.2.getD
            ((moveStep st qubit qubit_node node).1.1.getD q 0) 0 = q)
      ∧ (moveStep st qubit qubit_node node).1.2.length = Q := by
  have hllen : st.1.length = Q := by have := hperm.length_eq; simpa using this
  have hqn_lt : qubit_node < Q := by rw [← hqn]; exact perm_range_getD_lt hperm hq
  have hLinj : ∀ a b, a < Q → b < Q → st.1.getD a 0 = st.1.getD b 0 → a = b := by
    intro a b ha hb hab
    have h1 := hinv a ha
    have h2 := hinv b hb
    rw [hab] at h1
    rw [h1] at h2
    exact h2
  set sq := st.2.getD node 0 with hsq
  have hsq_lt : sq < Q := inverse_getD_lt hperm hinv hnode
  have hLsq : st.1.getD sq 0 = node := by
    rcases perm_range_surj hperm hnode with ⟨a, ha, hLa⟩
    have : st.2.getD node 0 = a := by rw [← hLa, hinv a ha]
    rw [hsq, this]
    exact hLa
  have hPq : st.2.getD qubit_node 0 = qubit := by rw [← hqn, hinv qubit hq]
  have hL1 : (moveStep st qubit qubit_node node).1.1
      = (st.1.set qubit node).set sq qubit_node := rfl
  have hP1 : (moveStep st qubit qubit_node node).1.2
      = (st.2.set node qubit).set qubit_node sq := rfl
  have hLperm : ((st.1.set qubit node).set sq qubit_node).Perm (List.range Q) := by
    have h1 : (st.1.set qubit node).set sq qubit_node
        = (st.1.set qubit (st.1.getD sq 0)).set sq (st.1.getD qubit 0) := by
      rw [hLsq, hqn]
    rw [h1]
    by_cases he : qubit = sq
    · rw [← he, List.set_set, set_getD_self _ _ _ (by omega)]
      exact hperm
    · refine (set_set_perm (by omega) (by omega) he 0 (st.1.getD qubit 0)).trans ?_
      rw [set_getD_self _ _ _ (by omega)]
      exact hperm
  refine ⟨by rw [hL1]; exact hLperm, ?_, by rw [hP1]; simp [List.length_set, hplen]⟩
  intro q hqQ
  rw [hL1, hP1]
  by_cases hqsq : q = sq
  · subst hqsq
    rw [getD_set_eq_of_lt (st.1.set qubit node) sq qubit_node 0
      (by rw [List.length_set]; omega)]
    rw [getD_set_eq_of_lt (st.2.set node qubit) qubit_node sq 0
      (by rw [List.length_set]; omega)]
  · rw [getD_set_neq (st.1.set qubit node) sq q qubit_node 0 (fun he => hqsq he.symm)]
    by_cases hqq : q = qubit
    · subst hqq
      rw [getD_set_eq_of_lt st.1 q node 0 (by omega)]
      have hnne : node ≠ qubit_node := by
        intro he
        apply hqsq
        rw [← hPq, ← he, hsq]
      rw [getD_set_neq (st.2.set node q) qubit_node node sq 0 (fun he => hnne he.symm)]
      rw [getD_set_eq_of_lt st.2 node q 0 (by omega)]
    · rw [getD_set_neq st.1 qubit q node 0 (fun he => hqq he.symm)]
      have hu_ne_node : st.1.getD q 0 ≠ node := by
        intro he
        rw [← hLsq] at he
        exact hqsq (hLinj q sq hqQ hsq_lt he)
      have hu_ne_qn : st.1.getD q 0 ≠ qubit_node := by
        intro he
        rw [← hqn] at he
        exact hqq (hLinj q qubit hqQ hq he)
      rw [getD_set_neq (st.2.set node qubit) qubit_node (st.1.getD q 0) sq 0
        (fun he => hu_ne_qn he.symm)]
      rw [getD_set_neq st.2 node (st.1.getD q 0) qubit 0 (fun he => hu_ne_node he.symm)]
      exact hinv q hqQ

/-! ### MAX_PAIRS: the candidate scan is an argmax with lowest-index ties -/

theorem fsFold_none (h : QIH) (d : Nat) (target : List Nat) :
    ∀ l : List Nat, l.foldl (fsStep h d target) none = none := by
  intro l
  induction l with
  | nil => rfl
  | cons i l ih => rw [List.foldl_cons]; exact ih

theorem int_fold_nonneg (fr : List Nat) :
    ∀ (l : List (Nat × Nat)) (t : Int), 0 ≤ t →
      0 ≤ l.foldl (fun t p => if p.1 ∈ fr then t + (p.2 : Int) else t) t := by
  intro l
  induction l with
  | nil => intro t ht; exact ht
  | cons p l ih =>
    intro t ht
    rw [List.foldl_cons]
    by_cases hp : p.1 ∈ fr
    · simp only [hp, if_true]
      exact ih _ (add_nonneg ht (Int.natCast_nonneg _))
    · simp only [hp, if_false]
      exact ih _ ht

theorem score_nonneg (h : QIH) {d i : Nat} {s : Int} (hs : h.score d i = some s) :
    0 ≤ s := by
  unfold QIH.score at hs
  by_cases hd : d ≤ h.qubits
  · rw [if_pos hd] at hs
    have hfs := Option.some.inj hs
    rw [← hfs]
    exact int_fold_nonneg h.free_qubits _ 0 le_rfl
  · rw [if_neg hd] at hs
    exact Option.noConfusion hs

theorem fsFold_spec (h : QIH) (d : Nat) (target : List Nat) :
    ∀ (l : List Nat) (m m' : Int × Int),
      l.foldl (fsStep h d target) (some m) = some m' →
      (m' = m ∧ ∀ j ∈ l, j ∈ target → ∃ sj, h.score d j = some sj ∧ sj ≤ m.2)
      ∨ (∃ l1 cn l2, l = l1 ++ cn :: l2 ∧ cn ∈ target
          ∧ m'.1 = (cn : Int) ∧ h.score d cn = some m'.2 ∧ m.2 < m'.2
          ∧ (∀ j ∈ l1, j ∈ target → ∃ sj, h.score d j = some sj ∧ sj < m'.2)
          ∧ (∀ j ∈ l2, j ∈ target → ∃ sj, h.score d j = some sj ∧ sj ≤ m'.2)) := by
  intro l
  induction l with
  | nil =>
    intro m m' hf
    left
    refine ⟨(Option.some.inj hf).symm, ?_⟩
    intro j hj
    exact absurd hj (List.not_mem_nil j)
  | cons i l ih =>
    intro m m' hf
    rw [List.foldl_cons] at hf
    by_cases hit : i ∈ target
    · cases hsc : h.score d i with
      | none =>
        rw [show fsStep h d target (some m) i = none by simp [fsStep, hit, hsc]] at hf
        rw [fsFold_none h d target l] at hf
        exact Option.noConfusion hf
      | some s =>
        by_cases hlt : m.2 < s
        · rw [show fsStep h d target (some m) i = some ((i : Int), s) by
            simp [fsStep, hit, hsc, hlt]] at hf
          rcases ih ((i : Int), s) m' hf with ⟨heq, hall⟩ |
            ⟨l1, cn, l2, hl, hcn, h1, h2, h3, h4, h5⟩
          · right
            refine ⟨[], i, l, by simp, hit, ?_, ?_, ?_, ?_, ?_⟩
            · rw [heq]
            · rw [heq]; exact hsc
            · rw [heq]; exact hlt
            · intro j hj; exact absurd hj (List.not_mem_nil j)
            · intro j hj hjt
              rcases hall j hj hjt with ⟨sj, hs1, hs2⟩
              exact ⟨sj, hs1, by rw [heq]; exact hs2⟩
          · right
            refine ⟨i :: l1, cn, l2, by rw [hl]; rfl, hcn, h1, h2, lt_trans hlt h3, ?_, h5⟩
            intro j hj hjt
            rcases List.mem_cons.1 hj with hji | hjl
            · subst hji; exact ⟨s, hsc, h3⟩
            · exact h4 j hjl hjt
        · rw [show fsStep h d target (some m) i = some m by
            simp [fsStep, hit, hsc, hlt]] at hf
          rcases ih m m' hf with ⟨heq, hall⟩ |
            ⟨l1, cn, l2, hl, hcn, h1, h2, h3, h4, h5⟩
          · left
            refine ⟨heq, ?_⟩
            intro j hj hjt
            rcases List.mem_cons.1 hj with hji | hjl
            · subst hji; exact ⟨s, hsc, le_of_not_lt hlt⟩
            · exact hall j hjl hjt
          · right
            refine ⟨i :: l1, cn, l2, by rw [hl]; rfl, hcn, h1, h2, h3, ?_, h5⟩
            intro j hj hjt
            rcases List.mem_cons.1 hj with hji | hjl
            · subst hji
              exact ⟨s, hsc, lt_of_le_of_lt (le_of_not_lt hlt) h3⟩
            · exact h4 j hjl hjt
    · rw [show fsStep h d target (some m) i = some m by simp [fsStep, hit]] at hf
      rcases ih m m' hf with ⟨heq, hall⟩ |
        ⟨l1, cn, l2, hl, hcn, h1, h2, h3, h4, h5⟩
      · left
        refine ⟨heq, ?_⟩
        intro j hj hjt
        rcases List.mem_cons.1 hj with hji | hjl
        · subst hji; exact absurd hjt hit
        · exact hall j hjl hjt
      · right
        refine ⟨i :: l1, cn, l2, by rw [hl]; rfl, hcn, h1, h2, h3, ?_, h5⟩
        intro j hj hjt
        rcases List.mem_cons.1 hj with hji | hjl
        · subst hji; exact absurd hjt hit
        · exact h4 j hjl hjt

theorem fromSet_spec (h : QIH) {d : Nat} {target : List Nat} {c : Int} {P : List Nat}
    (hs : h.from_set d target = some (c, P))
    (hne : ∃ i, i < h.qubits ∧ i ∈ target) :
    ∃ (cn : Nat) (sc : Int), c = (cn : Int) ∧ cn ∈ target ∧ cn < h.qubits
      ∧ h.score d cn = some sc
      ∧ (∀ j, j < h.qubits → j ∈ target → ∃ sj, h.score d j = some sj ∧ sj ≤ sc)
      ∧ (∀ j, j < cn → j ∈ target → ∃ sj, h.score d j = some sj ∧ sj < sc)
      ∧ P = h.getFirstD d (h.sortedRow cn) := by
  unfold QIH.from_set at hs
  cases hm : h.fromSetFold d target with
  | none => rw [hm] at hs; exact Option.noConfusion hs
  | some m =>
    rw [hm] at hs
    unfold QIH.fromSetFold at hm
    rcases fsFold_spec h d target (List.range h.qubits) (-1, -1) m hm with
      ⟨heq, hall⟩ | ⟨l1, cn, l2, hl, hcn, h1, h2, h3, h4, h5⟩
    · exfalso
      rcases hne with ⟨i0, hi0Q, hi0t⟩
      rcases hall i0 (List.mem_range.2 hi0Q) hi0t with ⟨s0, hs0, hle⟩
      have hge := score_nonneg h hs0
      have hle2 : s0 ≤ -1 := hle
      omega
    · have hcnQ : cn < h.qubits := by
        have hmem : cn ∈ List.range h.qubits := by
          rw [hl]; exact List.mem_append_right l1 (List.mem_cons_self cn l2)
        exact List.mem_range.1 hmem
      have hpy : pyIdx h.qubits m.1 = some cn := by
        rw [h1]
        unfold pyIdx
        rw [if_pos ⟨Int.natCast_nonneg cn, by exact_mod_cast hcnQ⟩]
        rw [Int.toNat_natCast]
      have hs2 : (match pyIdx h.qubits m.1 with
          | none => none
          | some r => some (m.1, h.getFirstD d (h.sortedRow r))) = some (c, P) := hs
      rw [hpy] at hs2
      have hcP := Option.some.inj hs2
      have hc : c = m.1 := (congrArg Prod.fst hcP).symm
      have hP : P = h.getFirstD d (h.sortedRow cn) := (congrArg Prod.snd hcP).symm
      refine ⟨cn, m.2, by rw [hc, h1], hcn, hcnQ, h2, ?_, ?_, hP⟩
      · intro j hjQ hjt
        have hjm : j ∈ l1 ++ cn :: l2 := by rw [← hl]; exact List.mem_range.2 hjQ
        rcases List.mem_append.1 hjm with hj1 | hj2
        · rcases h4 j hj1 hjt with ⟨sj, ha, hb⟩; exact ⟨sj, ha, le_of_lt hb⟩
        · rcases List.mem_cons.1 hj2 with hje | hj3
          · subst hje; exact ⟨m.2, h2, le_rfl⟩
          · exact h5 j hj3 hjt
      · intro j hjlt hjt
        have hjQ : j < h.qubits := lt_trans hjlt hcnQ
        have hjm : j ∈ l1 ++ cn :: l2 := by rw [← hl]; exact List.mem_range.2 hjQ
        have hpw : (l1 ++ cn :: l2).Pairwise (· < ·) := by
          rw [← hl]; exact List.pairwise_lt_range h.qubits
        rcases List.mem_append.1 hjm with hj1 | hj2
        · exact h4 j hj1 hjt
        · exfalso
          rcases List.mem_cons.1 hj2 with hje | hj3
          · omega
          · have hp2 := (List.pairwise_append.1 hpw).2.1
            have hlt2 := (List.pairwise_cons.1 hp2).1 j hj3
            omega

theorem fromSet_mem (h : QIH) {d : Nat} {target : List Nat} {c : Int} {P : List Nat}
    (hs : h.from_set d target = some (c, P))
    (hne : ∃ i, i < h.qubits ∧ i ∈ target) :
    ∃ cn : Nat, c = (cn : Int) ∧ cn ∈ target ∧ cn < h.qubits
      ∧ P = h.getFirstD d (h.sortedRow cn) := by
  rcases fromSet_spec h hs hne with ⟨cn, sc, h1, h2, h3, _, _, _, h7⟩
  exact ⟨cn, h1, h2, h3, h7⟩

/-! ### MAX_PAIRS: rows, the stable sort and the partner extraction -/

theorem insertDesc_perm (x : Nat × Nat) :
    ∀ l : List (Nat × Nat), (insertDesc x l).Perm (x :: l) := by
  intro l
  induction l with
  | nil => exact List.Perm.refl _
  | cons y ys ih =>
    simp only [insertDesc]
    by_cases hc : x.2 ≤ y.2
    · rw [if_pos hc]
      exact List.Perm.trans (ih.cons y) (List.Perm.swap x y ys)
    · rw [if_neg hc]

theorem sortDesc_perm_aux :
    ∀ (l acc : List (Nat × Nat)),
      (l.foldl (fun a x => insertDesc x a) acc).Perm (acc ++ l) := by
  intro l
  induction l with
  | nil => intro acc; simpa using List.Perm.refl acc
  | cons x l ih =>
    intro acc
    rw [List.foldl_cons]
    have h1 := ih (insertDesc x acc)
    have h2 : (insertDesc x acc ++ l).Perm ((x :: acc) ++ l) :=
      (insertDesc_perm x acc).append_right l
    have h3 : ((x :: acc) ++ l).Perm (acc ++ x :: l) := by
      simpa using List.perm_middle.symm
    exact (h1.trans h2).trans h3

theorem sortDesc_perm (l : List (Nat × Nat)) : (sortDesc l).Perm l := by
  have h := sortDesc_perm_aux l []
  simpa [sortDesc] using h

theorem row_map_fst (h : QIH) (r : Nat) :
    (h.row r).map Prod.fst = List.range h.qubits := by
  unfold QIH.row
  rw [List.map_map]
  simp [Function.comp_def]

theorem mem_row (h : QIH) {r x c : Nat} (hm : (x, c) ∈ h.row r) :
    x < h.qubits ∧ c = h.C r x := by
  unfold QIH.row at hm
  rcases List.mem_map.1 hm with ⟨j, hj, hje⟩
  have hx : j = x := congrArg Prod.fst hje
  have hc : h.C r j = c := congrArg Prod.snd hje
  subst hx
  exact ⟨List.mem_range.1 hj, hc.symm⟩

theorem mem_sortedRow (h : QIH) {r x c : Nat} (hm : (x, c) ∈ h.sortedRow r) :
    x < h.qubits ∧ c = h.C r x := by
  unfold QIH.sortedRow at hm
  exact mem_row h ((sortDesc_perm (h.row r)).mem_iff.1 hm)

theorem sortedRow_fst_nodup (h : QIH) (r : Nat) :
    ((h.sortedRow r).map Prod.fst).Nodup := by
  have hperm := (sortDesc_perm (h.row r)).map Prod.fst
  have hnd : ((h.row r).map Prod.fst).Nodup := by
    rw [row_map_fst]; exact List.nodup_range h.qubits
  exact hperm.nodup_iff.2 hnd

theorem getFirstDAux_mem (free : List Nat) (d : Nat) :
    ∀ (l : List (Nat × Nat)) (f : Nat) (res : List Nat) (x : Nat),
      x ∈ getFirstDAux free d l f res →
      x ∈ res ∨ (x ∈ free ∧ ∃ c, (x, c) ∈ l ∧ c ≠ 0) := by
  intro l
  induction l with
  | nil => intro f res x hx; left; simpa [getFirstDAux] using hx
  | cons p rest ih =>
    intro f res x hx
    simp only [getFirstDAux] at hx
    by_cases h0 : p.2 = 0
    · rw [if_pos h0] at hx; exact Or.inl hx
    · rw [if_neg h0] at hx
      by_cases hpf : p.1 ∈ free
      · rw [if_pos hpf] at hx
        by_cases hfd : f + 1 = d
        · rw [if_pos hfd] at hx
          rcases List.mem_append.1 hx with hr | hs
          · exact Or.inl hr
          · right
            have hxp : x = p.1 := by simpa using hs
            subst hxp
            exact ⟨hpf, p.2, by rw [Prod.mk.eta]; exact List.mem_cons_self p rest, h0⟩
        · rw [if_neg hfd] at hx
          rcases ih (f + 1) (res ++ [p.1]) x hx with hr | ⟨hfr, c, hc, hc0⟩
          · rcases List.mem_append.1 hr with h1 | h2
            · exact Or.inl h1
            · right
              have hxp : x = p.1 := by simpa using h2
              subst hxp
              exact ⟨hpf, p.2, by rw [Prod.mk.eta]; exact List.mem_cons_self p rest, h0⟩
          · exact Or.inr ⟨hfr, c, List.mem_cons_of_mem p hc, hc0⟩
      · rw [if_neg hpf] at hx
        rcases ih f res x hx with hr | ⟨hfr, c, hc, hc0⟩
        · exact Or.inl hr
        · exact Or.inr ⟨hfr, c, List.mem_cons_of_mem p hc, hc0⟩

theorem getFirstDAux_nodup (free : List Nat) (d : Nat) :
    ∀ (l : List (Nat × Nat)) (f : Nat) (res : List Nat),
      (l.map Prod.fst).Nodup → res.Nodup →
      (∀ x ∈ res, ¬ x ∈ l.map Prod.fst) →
      (getFirstDAux free d l f res).Nodup := by
  intro l
  induction l with
  | nil => intro f res _ hres _; simpa [getFirstDAux] using hres
  | cons p rest ih =>
    intro f res hlnd hres hdisj
    have hlnd2 : (rest.map Prod.fst).Nodup := (List.nodup_cons.1 (by simpa using hlnd)).2
    have hp1 : ¬ p.1 ∈ rest.map Prod.fst := (List.nodup_cons.1 (by simpa using hlnd)).1
    simp only [getFirstDAux]
    by_cases h0 : p.2 = 0
    · rw [if_pos h0]; exact hres
    · rw [if_neg h0]
      by_cases hpf : p.1 ∈ free
      · rw [if_pos hpf]
        have hq : ¬ p.1 ∈ res := fun hin => hdisj p.1 hin (by simp)
        have hres2 : (res ++ [p.1]).Nodup := by
          rw [List.nodup_append]
          refine ⟨hres, List.nodup_singleton _, ?_⟩
          intro a ha hb
          have hab : a = p.1 := by simpa using hb
          subst hab
          exact hq ha
        by_cases hfd : f + 1 = d
        · rw [if_pos hfd]; exact hres2
        · rw [if_neg hfd]
          refine ih (f + 1) (res ++ [p.1]) hlnd2 hres2 ?_
          intro x hx
          rcases List.mem_append.1 hx with h1 | h2
          · intro hmem; exact hdisj x h1 (by simp [hmem])
          · have hxp : x = p.1 := by simpa using h2
            subst hxp
            exact hp1
      · rw [if_neg hpf]
        refine ih f res hlnd2 hres ?_
        intro x hx hmem
        exact hdisj x hx (by simp [hmem])

theorem getFirstD_sub (h : QIH) (d r : Nat) :
    ∀ x ∈ h.getFirstD d (h.sortedRow r),
      x ∈ h.free_qubits ∧ x < h.qubits ∧ h.C r x ≠ 0 := by
  intro x hx
  rcases getFirstDAux_mem h.free_qubits d (h.sortedRow r) 0 [] x hx with
    hr | ⟨hf, c, hc, hc0⟩
  · exact absurd hr (List.not_mem_nil x)
  · rcases mem_sortedRow h hc with ⟨hxQ, hce⟩
    exact ⟨hf, hxQ, by rw [← hce]; exact hc0⟩

theorem getFirstD_nodup (h : QIH) (d r : Nat) :
    (h.getFirstD d (h.sortedRow r)).Nodup :=
  getFirstDAux_nodup h.free_qubits d (h.sortedRow r) 0 []
    (sortedRow_fst_nodup h r) List.nodup_nil (fun x hx => absurd hx (List.not_mem_nil x))

theorem init_C_diag (cnots : List Cnot) (qubits : Nat)
    (hsc : ∀ c ∈ cnots, c.1 ≠ c.2.1) :
    ∀ q, (QIH.init cnots qubits).C q q = 0 := by
  suffices hgen : ∀ (l : List Cnot) (f : Nat → Nat → Nat),
      (∀ c ∈ l, c.1 ≠ c.2.1) → (∀ q, f q q = 0) →
      ∀ q, (l.foldl (fun f c => fun a b =>
        (if a = c.1 ∧ b = c.2.1 then 1 else 0)
          + (if a = c.2.1 ∧ b = c.1 then 1 else 0) + f a b) f) q q = 0 by
    intro q
    exact hgen cnots _ hsc (fun _ => rfl) q
  intro l
  induction l with
  | nil => intro f _ hf q; exact hf q
  | cons c l ih =>
    intro f hl hf q
    rw [List.foldl_cons]
    refine ih _ (fun c2 hc2 => hl c2 (List.mem_cons_of_mem c hc2)) ?_ q
    intro a
    have hcc := hl c (List.mem_cons_self c l)
    show (if a = c.1 ∧ a = c.2.1 then 1 else 0)
      + (if a = c.2.1 ∧ a = c.1 then 1 else 0) + f a a = 0
    rw [if_neg (fun hand => hcc (hand.1.symm.trans hand.2)),
      if_neg (fun hand => hcc (hand.2.symm.trans hand.1)), hf a]

theorem occupy_eq {h : FTNH} {v : Nat} {f : FTNH} (ho : h.occupy v = some f) :
    v ∈ h.free_nodes
      ∧ f = ⟨h.n, h.free_nodes.erase v,
          fun w => (h.free_neighbours w).erase v⟩ := by
  unfold FTNH.occupy at ho
  by_cases hv : v ∈ h.free_nodes
  · rw [if_pos hv] at ho
    exact ⟨hv, (Option.some.inj ho).symm⟩
  · rw [if_neg hv] at ho
    exact Option.noConfusion ho

theorem pySetI_nonneg {l : List Int} {i v : Int} {l2 : List Int}
    (hs : pySetI l i v = some l2) (hi : 0 ≤ i) :
    i.toNat < l.length ∧ l2 = l.set i.toNat v := by
  unfold pySetI pyIdx at hs
  by_cases hlt : i < (l.length : Int)
  · rw [if_pos ⟨hi, hlt⟩] at hs
    refine ⟨by omega, (Option.some.inj hs).symm⟩
  · rw [if_neg (fun hand => hlt hand.2)] at hs
    rw [if_neg (fun hand => absurd hand.2 (not_lt.2 hi))] at hs
    exact Option.noConfusion hs

theorem pySetI_natIdx {l : List Int} {u : Nat} {v : Int} {l2 : List Int}
    (hs : pySetI l (u : Int) v = some l2) :
    u < l.length ∧ l2 = l.set u v := by
  rcases pySetI_nonneg hs (Int.natCast_nonneg u) with ⟨h1, h2⟩
  rw [Int.toNat_natCast] at h1 h2
  exact ⟨h1, h2⟩

theorem map_qubit_eq {h : QIH} {cn : Nat} (hcn : cn < h.qubits) :
    h.map_qubit (cn : Int) = { h with free_qubits := h.free_qubits.erase cn } := by
  unfold QIH.map_qubit
  rw [if_pos ⟨Int.natCast_nonneg cn, by exact_mod_cast hcn⟩]
  rw [Int.toNat_natCast]

/-! ### MAX_PAIRS: the run invariant is preserved -/

theorem place_inv {Q : Nat} {st : MPState} {cn node : Nat} {queue2 : List (Nat × Int)}
    (hinv : MPInv Q st)
    (hcf : cn ∈ st.qih.free_qubits)
    (hnf : node ∈ st.fnh.free_nodes)
    (hnQ : node < Q)
    (hq2 : ∀ p ∈ queue2, 0 ≤ p.2 ∧ p.2 < (Q : Int)) :
    MPInv Q
      { l2p := st.l2p.set cn (node : Int),
        p2l := st.p2l.set node (cn : Int),
        qih := st.qih.map_qubit (cn : Int),
        fnh := ⟨st.fnh.n, st.fnh.free_nodes.erase node,
                fun w => (st.fnh.free_neighbours w).erase node⟩,
        queue := queue2, to_do := st.to_do - 1 } := by
  have hcQ : cn < Q := hinv.hflt cn hcf
  have hmq : st.qih.map_qubit (cn : Int)
      = { st.qih with free_qubits := st.qih.free_qubits.erase cn } :=
    map_qubit_eq (by rw [hinv.hQ]; exact hcQ)
  refine ⟨?_, ?_, ?_, ?_, ?_, ?_, ?_, ?_, ?_, ?_⟩
  · simpa using hinv.hl2p
  · simpa using hinv.hp2l
  · rw [hmq]; exact hinv.hQ
  · rw [hmq]; exact hinv.hfnd.erase cn
  · rw [hmq]; intro q hq; exact hinv.hflt q (List.mem_of_mem_erase hq)
  · show st.to_do - 1 = _
    rw [hmq]
    show st.to_do - 1 = ((st.qih.free_qubits.erase cn).length : Int)
    rw [List.length_erase_of_mem hcf]
    have hpos : 0 < st.qih.free_qubits.length := List.length_pos_of_mem hcf
    rw [hinv.htodo]
    omega
  · exact hinv.hnnd.erase node
  · rw [hmq]; exact hinv.hdiag
  · exact hq2
  · rw [hmq]
    intro q hq hqf
    by_cases hqc : q = cn
    · subst hqc
      refine ⟨node, hnQ, ?_, ?_, ?_⟩
      · intro hmem
        exact ((List.Nodup.mem_erase_iff hinv.hnnd).1 hmem).1 rfl
      · exact getD_set_eq_of_lt st.l2p q (node : Int) (-1) (by rw [hinv.hl2p]; exact hcQ)
      · exact getD_set_eq_of_lt st.p2l node (q : Int) (-1) (by rw [hinv.hp2l]; exact hnQ)
    · have hqnotfree : ¬ q ∈ st.qih.free_qubits := by
        intro hq2f
        exact hqf ((List.Nodup.mem_erase_iff hinv.hfnd).2 ⟨hqc, hq2f⟩)
      rcases hinv.hpairs q hq hqnotfree with ⟨u, huQ, hunf, hL, hP⟩
      have hune : u ≠ node := fun he => hunf (he ▸ hnf)
      refine ⟨u, huQ, ?_, ?_, ?_⟩
      · intro hmem; exact hunf (List.mem_of_mem_erase hmem)
      · rw [getD_set_neq st.l2p cn q (node : Int) (-1) (fun he => hqc he.symm)]
        exact hL
      · rw [getD_set_neq st.p2l node u (cn : Int) (-1) (fun he => hune he.symm)]
        exact hP

theorem mpInner_inv {Q : Nat} (node : Nat) (qubit : Int) :
    ∀ (t : Nat) (qn : List Nat) (st st2 : MPState),
      MPInv Q st → 0 ≤ qubit →
      qn.Nodup → (∀ x ∈ qn, x ∈ st.qih.free_qubits) → t ≤ qn.length →
      mpInner node qubit t qn st = some st2 → MPInv Q st2 := by
  intro t
  induction t with
  | zero =>
    intro qn st st2 hinv _ _ _ _ hrun
    have he : st = st2 := by simpa [mpInner] using hrun
    rw [← he]; exact hinv
  | succ t ih =>
    intro qn st st2 hinv hq hnd hsub hlen hrun
    simp only [mpInner] at hrun
    cases hmf : st.fnh.mostFreeSet (st.fnh.free_neighbours node) with
    | none => rw [hmf] at hrun; exact Option.noConfusion hrun
    | some nb =>
      simp only [hmf] at hrun
      cases hfs : st.qih.from_set nb.2.length qn with
      | none => rw [hfs] at hrun; exact Option.noConfusion hrun
      | some nq =>
        simp only [hfs] at hrun
        have hqm1 : ¬ qubit = -1 := by omega
        rw [if_neg hqm1] at hrun
        have hex : ∃ i, i < st.qih.qubits ∧ i ∈ qn := by
          have hpos : 0 < qn.length := by omega
          rcases List.exists_mem_of_length_pos hpos with ⟨x, hx⟩
          exact ⟨x, by rw [hinv.hQ]; exact hinv.hflt x (hsub x hx), hx⟩
        rcases fromSet_mem st.qih hfs hex with ⟨cn, hcq, hcmem, hcQ, hPeq⟩
        cases hoc : st.fnh.occupy nb.1 with
        | none => rw [hoc] at hrun; exact Option.noConfusion hrun
        | some fnh2 =>
          simp only [hoc] at hrun
          cases hsl : pySetI st.l2p nq.1 (nb.1 : Int) with
          | none => rw [hsl] at hrun; exact Option.noConfusion hrun
          | some l2p2 =>
            simp only [hsl] at hrun
            cases hsp : pySetI st.p2l (nb.1 : Int) nq.1 with
            | none => rw [hsp] at hrun; exact Option.noConfusion hrun
            | some p2l2 =>
              simp only [hsp] at hrun
              rw [hcq] at hsl hsp hrun
              rw [if_pos (Int.natCast_nonneg cn), Int.toNat_natCast] at hrun
              rcases pySetI_natIdx hsl with ⟨hclen, hl2p2e⟩
              rcases pySetI_natIdx hsp with ⟨hnlen, hp2l2e⟩
              have hnbQ : nb.1 < Q := by rw [← hinv.hp2l]; exact hnlen
              rcases occupy_eq hoc with ⟨hnbf, hfnh2e⟩
              have hcfree : cn ∈ st.qih.free_qubits := hsub cn hcmem
              have hcQ2 : cn < Q := by rw [← hinv.hQ]; exact hcQ
              have hinvNew : MPInv Q
                  { l2p := l2p2, p2l := p2l2,
                    qih := st.qih.map_qubit (cn : Int), fnh := fnh2,
                    queue := st.queue ++ [(nb.1, (cn : Int))],
                    to_do := st.to_do - 1 } := by
                rw [hl2p2e, hp2l2e, hfnh2e]
                refine place_inv hinv hcfree hnbf hnbQ ?_
                intro p hp
                rcases List.mem_append.1 hp with h1 | h2
                · exact hinv.hqueue p h1
                · have hpe : p = (nb.1, (cn : Int)) := by simpa using h2
                  subst hpe
                  refine ⟨Int.natCast_nonneg cn, ?_⟩
                  show ((cn : Nat) : Int) < (Q : Int)
                  exact_mod_cast hcQ2
              refine ih (qn.erase cn) _ st2 hinvNew hq (hnd.erase cn) ?_ ?_ hrun
              · rw [map_qubit_eq hcQ]
                intro x hx
                have hx2 := (List.Nodup.mem_erase_iff hnd).1 hx
                exact (List.Nodup.mem_erase_iff hinv.hfnd).2 ⟨hx2.1, hsub x hx2.2⟩
              · rw [List.length_erase_of_mem hcmem]
                have hpos : 0 < qn.length := by omega
                omega

theorem mpLoop_ok {Q : Nat} :
    ∀ (fuel : Nat) (st : MPState) (l2p p2l : List Int),
      MPInv Q st → mpLoop fuel st = MPResult.ok l2p p2l →
      l2p.length = Q ∧ p2l.length = Q
        ∧ ∀ q, q < Q → ∃ u, u < Q
            ∧ l2p.getD q (-1) = (u : Int) ∧ p2l.getD u (-1) = (q : Int) := by
  intro fuel
  induction fuel with
  | zero =>
    intro st l2p p2l _ hrun
    simp [mpLoop] at hrun
  | succ fuel ihf =>
    intro st l2p p2l hinv hrun
    simp only [mpLoop] at hrun
    by_cases htd : st.to_do = 0
    · rw [if_pos htd] at hrun
      injection hrun with ha hb
      subst ha
      subst hb
      have hlen0 : st.qih.free_qubits.length = 0 := by
        have h0 := hinv.htodo; rw [htd] at h0; omega
      have hfe : st.qih.free_qubits = [] := List.length_eq_zero.1 hlen0
      refine ⟨hinv.hl2p, hinv.hp2l, ?_⟩
      intro q hq
      rcases hinv.hpairs q hq (by rw [hfe]; exact List.not_mem_nil q) with
        ⟨u, huQ, _, hL, hP⟩
      exact ⟨u, huQ, hL, hP⟩
    · rw [if_neg htd] at hrun
      cases hque : st.queue with
      | nil =>
        simp only [hque] at hrun
        cases hmf : st.fnh.mostFree with
        | none => rw [hmf] at hrun; exact MPResult.noConfusion hrun
        | some nd =>
          simp only [hmf] at hrun
          cases hmost : st.qih.most nd.2.length with
          | none => rw [hmost] at hrun; exact MPResult.noConfusion hrun
          | some qb =>
            simp only [hmost] at hrun
            cases hsl : pySetI st.l2p qb.1 (nd.1 : Int) with
            | none => rw [hsl] at hrun; exact MPResult.noConfusion hrun
            | some l2p2 =>
              simp only [hsl] at hrun
              cases hsp : pySetI st.p2l (nd.1 : Int) qb.1 with
              | none => rw [hsp] at hrun; exact MPResult.noConfusion hrun
              | some p2l2 =>
                simp only [hsp] at hrun
                cases hoc : st.fnh.occupy nd.1 with
                | none => rw [hoc] at hrun; exact MPResult.noConfusion hrun
                | some fnh2 =>
                  simp only [hoc] at hrun
                  cases hmi : mpInner nd.1 qb.1
                      (min qb.2.length (fnh2.free_neighbours nd.1).length) qb.2
                      { l2p := l2p2, p2l := p2l2,
                        qih := st.qih.map_qubit qb.1, fnh := fnh2,
                        queue := [], to_do := st.to_do - 1 } with
                  | none => rw [hmi] at hrun; exact MPResult.noConfusion hrun
                  | some st3 =>
                    simp only [hmi] at hrun
                    unfold QIH.most at hmost
                    have hlen1 : st.qih.free_qubits.length ≠ 0 := by
                      intro h0
                      apply htd
                      rw [hinv.htodo, h0]
                      rfl
                    obtain ⟨x, hx⟩ :=
                      List.exists_mem_of_length_pos (Nat.pos_of_ne_zero hlen1)
                    have hex : ∃ i, i < st.qih.qubits ∧ i ∈ st.qih.free_qubits :=
                      ⟨x, by rw [hinv.hQ]; exact hinv.hflt x hx, hx⟩
                    rcases fromSet_mem st.qih hmost hex with ⟨cn, hcq, hcmem, hcQ, hqb2⟩
                    rw [hcq] at hsl hsp hmi
                    rcases pySetI_natIdx hsl with ⟨hclen, hl2p2e⟩
                    rcases pySetI_natIdx hsp with ⟨hnlen, hp2l2e⟩
                    have hndQ : nd.1 < Q := by rw [← hinv.hp2l]; exact hnlen
                    rcases occupy_eq hoc with ⟨hndf, hfnh2e⟩
                    have hcQ2 : cn < Q := by rw [← hinv.hQ]; exact hcQ
                    have hinvNew : MPInv Q
                        { l2p := l2p2, p2l := p2l2,
                          qih := st.qih.map_qubit (cn : Int), fnh := fnh2,
                          queue := [], to_do := st.to_do - 1 } := by
                      rw [hl2p2e, hp2l2e, hfnh2e]
                      exact place_inv hinv hcmem hndf hndQ
                        (fun p hp => absurd hp (List.not_mem_nil p))
                    rw [hqb2] at hmi
                    have hinv3 :=
                      mpInner_inv nd.1 ((cn : Nat) : Int) _ _ _ _ hinvNew
                        (Int.natCast_nonneg cn) (getFirstD_nodup st.qih _ cn) ?_
                        (min_le_left _ _) hmi
                    · exact ihf st3 l2p p2l hinv3 hrun
                    · rw [map_qubit_eq hcQ]
                      intro y hy
                      rcases getFirstD_sub st.qih _ cn y hy with ⟨hyf, hyQ, hyC⟩
                      have hyne : y ≠ cn := fun he => hyC (by rw [he]; exact hinv.hdiag cn)
                      exact (List.Nodup.mem_erase_iff hinv.hfnd).2 ⟨hyne, hyf⟩
      | cons q0 queue2 =>
        simp only [hque] at hrun
        cases hdi : st.qih.d_interactions q0.2 (st.fnh.free_neighbours q0.1).length with
        | none => rw [hdi] at hrun; exact MPResult.noConfusion hrun
        | some qn2 =>
          simp only [hdi] at hrun
          cases hmi : mpInner q0.1 q0.2
              (min qn2.length (st.fnh.free_neighbours q0.1).length) qn2
              { st with queue := queue2 } with
          | none => rw [hmi] at hrun; exact MPResult.noConfusion hrun
          | some st3 =>
            simp only [hmi] at hrun
            have hq0 := hinv.hqueue q0 (by rw [hque]; exact List.mem_cons_self q0 queue2)
            have hinvPop : MPInv Q { st with queue := queue2 } :=
              ⟨hinv.hl2p, hinv.hp2l, hinv.hQ, hinv.hfnd, hinv.hflt, hinv.htodo,
                hinv.hnnd, hinv.hdiag,
                fun p hp => hinv.hqueue p (by rw [hque]; exact List.mem_cons_of_mem q0 hp),
                hinv.hpairs⟩
            unfold QIH.d_interactions at hdi
            cases hpy : pyIdx st.qih.qubits q0.2 with
            | none => rw [hpy] at hdi; exact Option.noConfusion hdi
            | some r =>
              simp only [hpy] at hdi
              have hqn2 : qn2 = st.qih.getFirstD
                  (st.fnh.free_neighbours q0.1).length (st.qih.sortedRow r) :=
                (Option.some.inj hdi).symm
              subst hqn2
              have hinv3 :=
                mpInner_inv q0.1 q0.2 _ _ _ _ hinvPop hq0.1
                  (getFirstD_nodup st.qih _ r) ?_ (min_le_left _ _) hmi
              · exact ihf st3 l2p p2l hinv3 hrun
              · intro y hy
                exact (getFirstD_sub st.qih _ r y hy).1

theorem computeMappingMP_ok_pairs
    {n : Nat} {edges : List (Nat × Nat)} {cnots : List Cnot} {Q fuel : Nat}
    {l2p p2l : List Int}
    (hsc : ∀ c ∈ cnots, c.1 ≠ c.2.1)
    (hok : computeMappingMP n edges cnots Q fuel = MPResult.ok l2p p2l) :
    l2p.length = Q ∧ p2l.length = Q
      ∧ ∀ q, q < Q → ∃ u, u < Q
          ∧ l2p.getD q (-1) = (u : Int) ∧ p2l.getD u (-1) = (q : Int) := by
  unfold computeMappingMP at hok
  refine mpLoop_ok fuel _ l2p p2l ?_ hok
  refine ⟨?_, ?_, ?_, ?_, ?_, ?_, ?_, ?_, ?_, ?_⟩
  · simp
  · simp
  · rfl
  · exact List.nodup_range Q
  · intro q hq; exact List.mem_range.1 hq
  · show (Q : Int) = ((List.range Q).length : Int)
    simp
  · exact List.nodup_range n
  · exact init_C_diag cnots Q hsc
  · intro p hp; exact absurd hp (List.not_mem_nil p)
  · intro q hq hqf
    exact absurd (List.mem_range.2 hq) hqf

theorem getD_map_toNat (l : List Int) (q : Nat) (hq : q < l.length) :
    (l.map Int.toNat).getD q 0 = (l.getD q (-1)).toNat := by
  rw [List.getD_eq_getElem _ _ (by simpa using hq), List.getD_eq_getElem _ _ hq]
  simp

/-- C8 counterexample: two logical qubits on a one-node, edgeless topology
cannot all be placed.  The run ends in an uncaught Python exception (the
`ValueError` of `max` over the now-empty free-node list), not in a fatal
*unplaceable* error: `compute_mapping` has no post-condition check at all
— the method body ends with the queue append. -/
theorem maxpairs_unplaceable_crashes :
    computeMappingMP 1 [] [] 2 8 = MPResult.crash := by decide

/-- C8, amended.  `compute_mapping` never checks that every slot was
filled and has no *unplaceable* error; on degenerate topologies it crashes
with an uncaught exception.  What is true is the positive half: whenever
the loop does terminate normally, every slot of `l_to_p` and `p_to_l` has
been overwritten — no `-1` sentinel remains (the placed qubits and nodes
are in bijection, so all `Q` slots of both arrays are covered). -/
theorem maxpairs_completion_fills_all_slots
    (n : Nat) (edges : List (Nat × Nat)) (cnots : List Cnot) (Q fuel : Nat)
    (l2p p2l : List Int)
    (hsc : ∀ c ∈ cnots, c.1 ≠ c.2.1)
    (hok : computeMappingMP n edges cnots Q fuel = MPResult.ok l2p p2l) :
    ∀ q, q < Q → l2p.getD q (-1) ≠ -1 ∧ p2l.getD q (-1) ≠ -1 := by
  classical
  obtain ⟨hl, hp, hpairs⟩ := computeMappingMP_ok_pairs hsc hok
  choose u hu hL hP using hpairs
  have hinj : Function.Injective
      (fun a : Fin Q => (⟨u a.1 a.2, hu a.1 a.2⟩ : Fin Q)) := by
    intro a b hab
    have h1 : u a.1 a.2 = u b.1 b.2 := congrArg Fin.val hab
    have h2 := hP a.1 a.2
    rw [h1, hP b.1 b.2] at h2
    exact Fin.ext (by exact_mod_cast h2.symm)
  intro q hq
  constructor
  · rw [hL q hq]
    intro hcon
    have h0 : (0 : Int) ≤ ((u q hq : Nat) : Int) := Int.natCast_nonneg _
    omega
  · obtain ⟨a, ha⟩ := Finite.injective_iff_surjective.mp hinj ⟨q, hq⟩
    have huv : u a.1 a.2 = q := congrArg Fin.val ha
    rw [← huv, hP a.1 a.2]
    intro hcon
    have h0 : (0 : Int) ≤ ((a.1 : Nat) : Int) := Int.natCast_nonneg _
    omega

/-- C8 witness: a 2-qubit circuit on the 2-node edge topology completes
with `l_to_p = p_to_l = [0, 1]` and indeed no `-1` remains. -/
theorem maxpairs_completion_fills_all_slots_witness :
    ([0, 1] : List Int).getD 0 (-1) ≠ -1
      ∧ ([0, 1] : List Int).getD 0 (-1) ≠ -1 :=
  maxpairs_completion_fills_all_slots 2 [(0, 1)] [(0, 1, 0)] 2 3 [0, 1] [0, 1]
    (by decide) (by decide) 0 (by decide)

/-- C9 counterexample: three qubits with `C[0][1] = 5`, `C[0][2] = 1` and
qubit 1 already mapped (`free = {0, 2}`).  For `d = 1`, `S = {0, 2}`, the
spec reading scores both candidates 1 (top-1 still-free partner) and by
the lowest-index tie-break returns qubit 0 with partners `{2}`; the code
instead truncates each row before filtering, scoring qubit 0 with 0
(its top-1 partner, qubit 1, is no longer free) and qubit 2 with 1, and
returns qubit 2 with partners `{0}`. -/
theorem from_set_differs_from_spec_reading :
    QIH.from_set qih9 1 [0, 2] = some (2, [0])
      ∧ specFromSet qih9 1 [0, 2] = some (0, [2])
      ∧ QIH.from_set qih9 1 [0, 2] ≠ specFromSet qih9 1 [0, 2] := by decide

/-- C9, amended.  Actual semantics of
`qubit_with_most_d_interactions_from_set(d, S)`: the scan ranges over all
of `S` (membership in `free_qubits` is not required, contrary to the
claimed `S ∩ free_qubits`); each candidate's score truncates its
count-sorted row to the first `d` entries and then sums only the
still-free ones (instead of scoring the top-`d` still-free partners);
ties do go to the lowest index; and the returned partner set is the first
`d` free non-zero entries of the winner's row, which need not be the
entries that were scored. -/
theorem from_set_actual_semantics
    (h : QIH) (d : Nat) (target : List Nat) (c : Int) (P : List Nat)
    (hs : h.from_set d target = some (c, P))
    (hne : ∃ i, i < h.qubits ∧ i ∈ target) :
    ∃ (cn : Nat) (sc : Int), c = (cn : Int) ∧ cn ∈ target ∧ cn < h.qubits
      ∧ h.score d cn = some sc
      ∧ (∀ j, j < h.qubits → j ∈ target → ∃ sj, h.score d j = some sj ∧ sj ≤ sc)
      ∧ (∀ j, j < cn → j ∈ target → ∃ sj, h.score d j = some sj ∧ sj < sc)
      ∧ P = h.getFirstD d (h.sortedRow cn) :=
  fromSet_spec h hs hne

/-- C9 witness: the amended characterisation instantiated on the `qih9`
call, whose winner is qubit 2 with partner set `{0}`. -/
theorem from_set_actual_semantics_witness :
    ∃ (cn : Nat) (sc : Int), (2 : Int) = (cn : Int) ∧ cn ∈ [0, 2] ∧ cn < qih9.qubits
      ∧ qih9.score 1 cn = some sc
      ∧ (∀ j, j < qih9.qubits → j ∈ [0, 2] → ∃ sj, qih9.score 1 j = some sj ∧ sj ≤ sc)
      ∧ (∀ j, j < cn → j ∈ [0, 2] → ∃ sj, qih9.score 1 j = some sj ∧ sj < sc)
      ∧ [0] = qih9.getFirstD 1 (qih9.sortedRow cn) :=
  from_set_actual_semantics qih9 1 [0, 2] 2 [0] (by decide) ⟨0, by decide⟩

/-- C4.  The permutation invariant: the random mapper, the majority
mapper and (on a normally terminating run) the MAX_PAIRS mapper all
produce an `L2P` that is a permutation of `[0, Q)` with `P2L` its
pointwise inverse, and each single SWAP recorded by
`__move_through_path` preserves the invariant. -/
theorem placement_permutation_invariant (Q : Nat) :
    (∀ shuffled : List Nat, shuffled.Perm (List.range Q) →
      (randomMapperMaps Q shuffled).1.Perm (List.range Q)
        ∧ ∀ q, q < Q →
            (randomMapperMaps Q shuffled).2.getD
              ((randomMapperMaps Q shuffled).1.getD q 0) 0 = q)
    ∧ (∀ (n : Nat) (edges : List (Nat × Nat)) (cnots : List Cnot)
          (l2p p2l : List Nat),
        computeMappingMaj n edges cnots Q = some (l2p, p2l) →
        l2p.Perm (List.range Q) ∧ ∀ q, q < Q → p2l.getD (l2p.getD q 0) 0 = q)
    ∧ (∀ (n : Nat) (edges : List (Nat × Nat)) (cnots : List Cnot) (fuel : Nat)
          (l2p p2l : List Int),
        (∀ c ∈ cnots, c.1 ≠ c.2.1) →
        computeMappingMP n edges cnots Q fuel = MPResult.ok l2p p2l →
        (l2p.map Int.toNat).Perm (List.range Q)
          ∧ ∀ q, q < Q →
              p2l.getD ((l2p.map Int.toNat).getD q 0) (-1) = (q : Int))
    ∧ (∀ (st : MapState) (qubit qubit_node node : Nat),
        st.1.Perm (List.range Q) →
        (∀ q, q < Q → st.2.getD (st.1.getD q 0) 0 = q) →
        st.2.length = Q → qubit < Q → node < Q →
        st.1.getD qubit 0 = qubit_node →
        (moveStep st qubit qubit_node node).1.1.Perm (List.range Q)
          ∧ (∀ q, q < Q →
              (moveStep st qubit qubit_node node).1.2.getD
                ((moveStep st qubit qubit_node node).1.1.getD q 0) 0 = q)
          ∧ (moveStep st qubit qubit_node node).1.2.length = Q) := by
  refine ⟨?_, ?_, ?_, ?_⟩
  · intro shuffled hperm
    exact randomMapper_perm Q shuffled hperm
  · intro n edges cnots l2p p2l hok
    exact computeMappingMaj_perm n edges cnots Q l2p p2l hok
  · intro n edges cnots fuel l2p p2l hsc hok
    obtain ⟨hl, hp, hpairs⟩ := computeMappingMP_ok_pairs hsc hok
    classical
    choose u hu hL hP using hpairs
    have hmlen : (l2p.map Int.toNat).length = Q := by simpa using hl
    constructor
    · refine perm_range_of_inj (l2p.map Int.toNat) Q hmlen ?_ ?_
      · intro i hi
        rw [getD_map_toNat l2p i (by rw [hl]; exact hi), hL i hi, Int.toNat_natCast]
        exact hu i hi
      · intro i j hi hj hne heq
        rw [getD_map_toNat l2p i (by rw [hl]; exact hi),
          getD_map_toNat l2p j (by rw [hl]; exact hj), hL i hi, hL j hj,
          Int.toNat_natCast, Int.toNat_natCast] at heq
        apply hne
        have h1 := hP i hi
        rw [heq, hP j hj] at h1
        exact_mod_cast h1.symm
    · intro q hq
      rw [getD_map_toNat l2p q (by rw [hl]; exact hq), hL q hq, Int.toNat_natCast]
      exact hP q hq
  · intro st qubit qubit_node node hperm hinv hplen hq hnode hqn
    exact moveStep_preserves_inverse Q st qubit qubit_node node hperm hinv hplen
      hq hnode hqn

/-- C4 witness: the four conjuncts instantiated at `Q = 2` — the shuffle
`[1, 0]`, the majority and MAX_PAIRS runs on the 2-node edge topology
(both yield `[0, 1]` / `[0, 1]`), and the SWAP moving qubit 0 from node 0
to node 1. -/
theorem placement_permutation_invariant_witness :
    ((randomMapperMaps 2 [1, 0]).1.Perm (List.range 2)
        ∧ ∀ q, q < 2 →
            (randomMapperMaps 2 [1, 0]).2.getD
              ((randomMapperMaps 2 [1, 0]).1.getD q 0) 0 = q)
    ∧ (([0, 1] : List Nat).Perm (List.range 2)
        ∧ ∀ q, q < 2 →
            ([0, 1] : List Nat).getD (([0, 1] : List Nat).getD q 0) 0 = q)
    ∧ ((([0, 1] : List Int).map Int.toNat).Perm (List.range 2)
        ∧ ∀ q, q < 2 →
            ([0, 1] : List Int).getD
              ((([0, 1] : List Int).map Int.toNat).getD q 0) (-1) = (q : Int))
    ∧ ((moveStep ([0, 1], [0, 1]) 0 0 1).1.1.Perm (List.range 2)
        ∧ (∀ q, q < 2 →
            (moveStep ([0, 1], [0, 1]) 0 0 1).1.2.getD
              ((moveStep ([0, 1], [0, 1]) 0 0 1).1.1.getD q 0) 0 = q)
        ∧ (moveStep ([0, 1], [0, 1]) 0 0 1).1.2.length = 2) :=
  ⟨(placement_permutation_invariant 2).1 [1, 0] (by decide),
    (placement_permutation_invariant 2).2.1 2 [(0, 1)] [(0, 1, 0)] [0, 1] [0, 1]
      (by decide),
    (placement_permutation_invariant 2).2.2.1 2 [(0, 1)] [(0, 1, 0)] 3 [0, 1] [0, 1]
      (by decide) (by decide),
    (placement_permutation_invariant 2).2.2.2 ([0, 1], [0, 1]) 0 0 1 (by decide)
      (by decide) (by decide) (by decide) (by decide) (by decide)⟩

end Xanadu
